import Mathlib

/-!
# pg_meminfo: the symbol table (`hash.c`) and the smaps block decoder (`meminfo.c`)

A shallow embedding of the two C translation units and the properties proved of them.

Conventions of the embedding:

* a C `char` is the integer value it has after integer promotion (`CChar := Int`); the
  range (`-128..127` or `0..255`) depends on the platform and no definition relies on it;
* a C string is the list of its chars, the terminating NUL left out; functions that read a
  string stop at the first NUL they meet, or at the end of the list;
* `uint32_t` values are naturals, reduced modulo `2^32` where the C arithmetic can wrap;
* the 64 buckets that `hash_map_create` allocates are a function from bucket index to
  `hash_item`; only the indices `0..63` are ever read or written;
* loops are structural recursions on a fuel argument and return `none` when the fuel runs
  out before the loop exits; the theorems show that the fuel given never runs out;
* the loop body `get_smaps_line` works on one buffer filled by `fgets`; `get_smaps_lines`
  runs it over a given list of buffers, `get_smaps_file` over the chars of a file, which
  `fgets` cuts into buffers (a line of more than 511 chars arrives as several buffers);
* a store outside the `values` array is undefined in C and yields `none`.
-/

set_option maxRecDepth 10000000

namespace PgMeminfo

/-! ## hash.h -/

/-- Value of a C `char` after integer promotion. -/
abbrev CChar := Int

/-- A C string: the chars before the terminating NUL. -/
abbrev CString := List CChar

/-- The chars of an ASCII literal. -/
def cstr (s : String) : CString := s.toList.map fun c => Int.ofNat c.toNat

/-- Number of buckets, `#define HASH_TABLE_SIZE 64`. -/
def HASH_TABLE_SIZE : Nat := 64

/-- One bucket, `struct hash_item`. -/
structure hash_item where
  hash : Nat
  value : Nat
deriving DecidableEq, Repr

/-- The bucket array behind a `hash_item *`. -/
abbrev Table := Nat → hash_item

/-- Result of `hash_map_create`: `palloc0` hands out zeroed memory. -/
def hash_map_create : Table := fun _ => { hash := 0, value := 0 }

/-- Assignment to one bucket, `map[bucket] = item`. -/
def Table.store (map : Table) (bucket : Nat) (item : hash_item) : Table :=
  fun i => if i = bucket then item else map i

/-! ## hash.c -/

/-- One round of the loop body of `hash_str`: `hash = ((hash << 5) + hash) + *s`,
computed in `uint32_t`; the promoted char is converted to `uint32_t` by the addition. -/
def hash_step (hash : Nat) (c : CChar) : Nat :=
  let shifted := (hash <<< 5) % 2 ^ 32
  let sum := (shifted + hash) % 2 ^ 32
  ((Int.ofNat sum + c) % 2 ^ 32).toNat

/-- The loop `while (*s) hash = ((hash << 5) + hash) + *s++;`. -/
def hash_str_loop (hash : Nat) : CString → Nat
  | [] => hash
  | c :: s => if c = 0 then hash else hash_str_loop (hash_step hash c) s

/-- Embedding of `hash_str`. -/
def hash_str (s : CString) : Nat := hash_str_loop 5381 s

/-- Advance of the probe position: `if (++bucket == HASH_TABLE_SIZE) bucket = 0;`. -/
def next_bucket (bucket : Nat) : Nat :=
  if bucket + 1 = HASH_TABLE_SIZE then 0 else bucket + 1

/-- The probe loop of `hash_lookup`, from the state `(bucket, tries)`:
`while (map[bucket].hash != hash) { advance; if (++tries == HASH_TABLE_SIZE / 2) break; }`.
Yields the state at loop exit. -/
def lookup_loop (map : Table) (hash : Nat) : Nat → Nat → Nat → Option (Nat × Nat)
  | 0, _, _ => none
  | fuel + 1, bucket, tries =>
    if (map bucket).hash ≠ hash then
      let bucket := next_bucket bucket
      let tries := tries + 1
      if tries = HASH_TABLE_SIZE / 2 then some (bucket, tries)
      else lookup_loop map hash fuel bucket tries
    else some (bucket, tries)

/-- Embedding of `hash_lookup`. The loop starts with `tries = 0` and `HASH_TABLE_SIZE` as
fuel, which it never uses up (`hash_lookup_total`). -/
def hash_lookup (map : Table) (s : CString) : Option Nat :=
  let hash := hash_str s
  let bucket := hash % HASH_TABLE_SIZE
  match lookup_loop map hash HASH_TABLE_SIZE bucket 0 with
  | none => none
  | some (bucket, tries) =>
    if tries < HASH_TABLE_SIZE then some (map bucket).value
    else some 0

/-- The probe loop of `hash_insert`:
`while (map[bucket].hash > 0) { advance; if (++tries == HASH_TABLE_SIZE / 2) break; }`. -/
def insert_loop (map : Table) : Nat → Nat → Nat → Option (Nat × Nat)
  | 0, _, _ => none
  | fuel + 1, bucket, tries =>
    if (map bucket).hash > 0 then
      let bucket := next_bucket bucket
      let tries := tries + 1
      if tries = HASH_TABLE_SIZE / 2 then some (bucket, tries)
      else insert_loop map fuel bucket tries
    else some (bucket, tries)

/-- Embedding of `hash_insert`: the table after the call and the returned `int`. The fuel
is never used up (`hash_insert_total`). -/
def hash_insert (map : Table) (s : CString) (value : Nat) : Option (Table × Int) :=
  let hash := hash_str s
  let bucket := hash % HASH_TABLE_SIZE
  match insert_loop map HASH_TABLE_SIZE bucket 0 with
  | none => none
  | some (bucket, tries) =>
    if tries < HASH_TABLE_SIZE then
      some (map.store bucket { hash := hash, value := value }, 1)
    else some (map, 0)

/-! ## meminfo.c: the field enumeration and the preloaded symbol table -/

/-- Slots of `enum smap_fields`, by their enumerator values. -/
def SMAP_PID : Nat := 0
def SMAP_START_ADDRESS : Nat := 1
def SMAP_END_ADDRESS : Nat := 2
def SMAP_PERMISSIONS : Nat := 3
def SMAP_OFFSET : Nat := 4
def SMAP_DEV_MAJOR : Nat := 5
def SMAP_DEV_MINOR : Nat := 6
def SMAP_INODE : Nat := 7
def SMAP_PATH : Nat := 8
def SMAP_SIZE : Nat := 9
def SMAP_KERNEL_PAGE_SIZE : Nat := 10
def SMAP_MMU_PAGE_SIZE : Nat := 11
def SMAP_RSS : Nat := 12
def SMAP_PSS : Nat := 13
def SMAP_PSS_DIRTY : Nat := 14
def SMAP_SHARED_CLEAN : Nat := 15
def SMAP_SHARED_DIRTY : Nat := 16
def SMAP_PRIVATE_CLEAN : Nat := 17
def SMAP_PRIVATE_DIRTY : Nat := 18
def SMAP_REFERENCED : Nat := 19
def SMAP_ANONYMOUS : Nat := 20
def SMAP_KSM : Nat := 21
def SMAP_LAZY_FREE : Nat := 22
def SMAP_ANON_HUGE_PAGES : Nat := 23
def SMAP_SHMEM_PMD_MAPPED : Nat := 24
def SMAP_FILE_PMD_MAPPED : Nat := 25
def SMAP_SHARED_HUGE_TLB : Nat := 26
def SMAP_PRIVATE_HUGE_TLB : Nat := 27
def SMAP_SWAP : Nat := 28
def SMAP_SWAP_PSS : Nat := 29
def SMAP_LOCKED : Nat := 30
def SMAP_THP_ELIGIBLE : Nat := 31
def SMAP_VM_FLAGS : Nat := 32
def SMAP_FIELD_COUNT : Nat := 33

/-- The array `smap_mappings`, as `(key, value)` pairs in the listed order. -/
def smap_mappings : List (CString × Nat) :=
  [ (cstr "Size", SMAP_SIZE),
    (cstr "KernelPageSize", SMAP_KERNEL_PAGE_SIZE),
    (cstr "MMUPageSize", SMAP_MMU_PAGE_SIZE),
    (cstr "Rss", SMAP_RSS),
    (cstr "Pss", SMAP_PSS),
    (cstr "Pss_Dirty", SMAP_PSS_DIRTY),
    (cstr "Shared_Clean", SMAP_SHARED_CLEAN),
    (cstr "Shared_Dirty", SMAP_SHARED_DIRTY),
    (cstr "Private_Clean", SMAP_PRIVATE_CLEAN),
    (cstr "Private_Dirty", SMAP_PRIVATE_DIRTY),
    (cstr "Referenced", SMAP_REFERENCED),
    (cstr "Anonymous", SMAP_ANONYMOUS),
    (cstr "KSM", SMAP_KSM),
    (cstr "LazyFree", SMAP_LAZY_FREE),
    (cstr "AnonHugePages", SMAP_ANON_HUGE_PAGES),
    (cstr "ShmemPmdMapped", SMAP_SHMEM_PMD_MAPPED),
    (cstr "FilePmdMapped", SMAP_FILE_PMD_MAPPED),
    (cstr "Shared_Hugetlb", SMAP_SHARED_HUGE_TLB),
    (cstr "Private_Hugetlb", SMAP_PRIVATE_HUGE_TLB),
    (cstr "Swap", SMAP_SWAP),
    (cstr "SwapPss", SMAP_SWAP_PSS),
    (cstr "Locked", SMAP_LOCKED),
    (cstr "THPeligible", SMAP_THP_ELIGIBLE),
    (cstr "VmFlags", SMAP_VM_FLAGS) ]

/-- The preload loop of `get_smaps`,
`for (i = 0; i < n; i++) hash_insert(hash_map, mappings[i].key, mappings[i].value);`
the value returned by `hash_insert` is dropped there. -/
def insert_all (map : Table) : List (CString × Nat) → Option Table
  | [] => some map
  | (key, value) :: rest =>
    match hash_insert map key value with
    | none => none
    | some (map, _) => insert_all map rest

/-- Number of buckets of the table whose stored hash is not the empty mark 0. -/
def occupied (map : Table) : Nat :=
  ((List.range HASH_TABLE_SIZE).filter fun i => (map i).hash ≠ 0).length

/-- The symbol table `get_smaps` works with: `hash_map_create`, then the preload loop over
`smap_mappings`. -/
def smap_table : Table :=
  match insert_all hash_map_create smap_mappings with
  | some map => map
  | none => hash_map_create

/-! ## meminfo.c: the conversions of the three `sscanf` formats -/

/-- The C string held by a buffer: its chars up to the first NUL. -/
def c_str (buf : List CChar) : CString := buf.takeWhile fun c => c ≠ 0

/-- White space in the C locale: space, `\t`, `\n`, `\v`, `\f`, `\r`. -/
def isspace (c : Int) : Bool := c = 32 || (9 ≤ c && c ≤ 13)

/-- Decimal digit. -/
def isdigit (c : Int) : Bool := 48 ≤ c && c ≤ 57

/-- Lower-case ASCII letter. -/
def islower (c : Int) : Bool := 97 ≤ c && c ≤ 122

/-- Scan set `[0-9a-f]`. -/
def in_hex (c : Int) : Bool := isdigit c || (97 ≤ c && c ≤ 102)

/-- Scan set `[rwxsp-]`. -/
def in_perms (c : Int) : Bool :=
  c = 114 || c = 119 || c = 120 || c = 115 || c = 112 || c = 45

/-- Scan set `[a-zA-Z_]`. -/
def in_key (c : Int) : Bool := islower c || (65 ≤ c && c ≤ 90) || c = 95

/-- Scan set `[a-z ]`. -/
def in_flags (c : Int) : Bool := islower c || c = 32

/-- Longest run of chars of `set` at the head of the input, `width` chars at most. -/
def take_run (set : CChar → Bool) : Nat → CString → CString
  | 0, _ => []
  | _ + 1, [] => []
  | width + 1, c :: s => if set c then c :: take_run set width s else []

/-- Conversion `%<width>[set]`: the matched run and the rest of the input; no white space
is skipped, and an empty run is a failure. -/
def scan_set (set : CChar → Bool) (width : Nat) (s : CString) : Option (CString × CString) :=
  let run := take_run set width s
  if run = [] then none else some (run, s.drop run.length)

/-- White-space directive of a format: skips every leading white-space char. -/
def skip_space (s : CString) : CString := s.dropWhile isspace

/-- Ordinary char of a format (`-`, `:`): matches exactly that char. -/
def scan_char (c : CChar) : CString → Option CString
  | [] => none
  | d :: s => if d = c then some s else none

/-- Value of a run of decimal digits. -/
def digits_value (digits : CString) : Int :=
  digits.foldl (fun acc d => 10 * acc + (d - 48)) 0

/-- Storing the `long` that the conversion produced into an `int32_t` object. A numeral
outside the range of `int` is undefined in ISO C; this follows glibc, which saturates
to the range of `long` and keeps the low 32 bits. -/
def int32_of_long (v : Int) : Int :=
  let l := max (-(2 ^ 63)) (min v (2 ^ 63 - 1))
  let w := l % 2 ^ 32
  if w < 2 ^ 31 then w else w - 2 ^ 32

/-- Conversion `%d` into an `int32_t`: skips white space, takes an optional sign and a
non-empty run of digits. -/
def scan_int (s : CString) : Option (Int × CString) :=
  let s := skip_space s
  let signed : Bool × CString :=
    match s with
    | [] => (false, [])
    | c :: r => if c = 45 then (true, r) else if c = 43 then (false, r) else (false, c :: r)
  let digits := signed.2.takeWhile isdigit
  if digits = [] then none
  else
    let n := digits_value digits
    some (int32_of_long (if signed.1 then -n else n), signed.2.drop digits.length)

/-- Conversion `%<width>s`: skips white space, takes a non-empty run of other chars. -/
def scan_word (width : Nat) (s : CString) : Option (CString × CString) :=
  scan_set (fun c => !isspace c) width (skip_space s)

/-- The eight objects the header `sscanf` assigns to, with its return value. -/
structure smap_header where
  matched : Int
  start_addr : CString
  end_addr : CString
  perms : CString
  offset : CString
  dev_major : CString
  dev_minor : CString
  inode : Int
  path : CString
deriving DecidableEq, Repr

/-- The call
`sscanf(line, "%32[0-9a-f]-%32[0-9a-f] %4[rwxsp-] %12[0-9a-f] %2[0-9a-f]:%2[0-9a-f] %d %255s", ...)`
on zero-initialised objects: the conversions are tried in order, the first failure ends
the call, `matched` counts the assignments made (`EOF`, -1, on an empty line). -/
def sscanf_header (line : CString) : smap_header :=
  let h0 : smap_header :=
    { matched := 0, start_addr := [], end_addr := [], perms := [], offset := [],
      dev_major := [], dev_minor := [], inode := 0, path := [] }
  match scan_set in_hex 32 line with
  | none => { h0 with matched := if line = [] then -1 else 0 }
  | some (start_addr, s) =>
  let h1 := { h0 with matched := 1, start_addr := start_addr }
  match scan_char 45 s with
  | none => h1
  | some s =>
  match scan_set in_hex 32 s with
  | none => h1
  | some (end_addr, s) =>
  let h2 := { h1 with matched := 2, end_addr := end_addr }
  match scan_set in_perms 4 (skip_space s) with
  | none => h2
  | some (perms, s) =>
  let h3 := { h2 with matched := 3, perms := perms }
  match scan_set in_hex 12 (skip_space s) with
  | none => h3
  | some (offset, s) =>
  let h4 := { h3 with matched := 4, offset := offset }
  match scan_set in_hex 2 (skip_space s) with
  | none => h4
  | some (dev_major, s) =>
  let h5 := { h4 with matched := 5, dev_major := dev_major }
  match scan_char 58 s with
  | none => h5
  | some s =>
  match scan_set in_hex 2 s with
  | none => h5
  | some (dev_minor, s) =>
  let h6 := { h5 with matched := 6, dev_minor := dev_minor }
  match scan_int (skip_space s) with
  | none => h6
  | some (inode, s) =>
  let h7 := { h6 with matched := 7, inode := inode }
  match scan_word 255 (skip_space s) with
  | none => h7
  | some (path, _) => { h7 with matched := 8, path := path }

/-- The call `sscanf(line, "%20[a-zA-Z_]: %d", key, &val)`: its return value, and `key`
and `val` after the call, given what they held before. -/
def sscanf_int (line key : CString) (val : Int) : Int × CString × Int :=
  match scan_set in_key 20 line with
  | none => (if line = [] then -1 else 0, key, val)
  | some (k, s) =>
  match scan_char 58 s with
  | none => (1, k, val)
  | some s =>
  match scan_int (skip_space s) with
  | none => (1, k, val)
  | some (v, _) => (2, k, v)

/-- The call `sscanf(line, "%20[a-zA-Z_]: %32[a-z ]", key, sval)`: its return value, and
`key` and `sval` after the call. -/
def sscanf_text (line key sval : CString) : Int × CString × CString :=
  match scan_set in_key 20 line with
  | none => (if line = [] then -1 else 0, key, sval)
  | some (k, s) =>
  match scan_char 58 s with
  | none => (1, k, sval)
  | some s =>
  match scan_set in_flags 32 (skip_space s) with
  | none => (1, k, sval)
  | some (t, _) => (2, k, t)

/-! ## meminfo.c: the line loop of `get_smaps` -/

/-- A `Datum` as `get_smaps` makes them: `Int32GetDatum (v)` or `CStringGetTextDatum (s)`.
The zero `Datum` of `values[SMAP_FIELD_COUNT] = {0}` is `Int32GetDatum (0)`. -/
inductive Datum where
  | int32 (v : Int)
  | text (s : CString)
deriving DecidableEq, Repr

/-- State of the line loop for one backend: the `values` array, the `in_region` flag and
the rows handed to `tuplestore_putvalues` for this backend so far, oldest first. -/
structure smap_state where
  values : List Datum
  in_region : Bool
  rows : List (List Datum)
deriving DecidableEq, Repr

/-- State at the head of the line loop of one backend: `values` zeroed but for the pid,
`in_region = false`, no row handed over yet for this file. -/
def smap_init (pid : Int) : smap_state :=
  { values := (List.replicate SMAP_FIELD_COUNT (Datum.int32 0)).set SMAP_PID (Datum.int32 pid),
    in_region := false,
    rows := [] }

/-- Conversion of the `uint32_t` that `hash_lookup` returns to `int32_t hash_index`. -/
def int32_of_uint32 (v : Nat) : Int :=
  if v < 2 ^ 31 then Int.ofNat v else Int.ofNat v - 2 ^ 32

/-- The statements `hash_index = hash_lookup (hash_map, key);
if (hash_index > 0) values[hash_index] = datum;`. A store outside the array is undefined
and yields `none`. -/
def store_field (hash_map : Table) (values : List Datum) (key : CString) (datum : Datum) :
    Option (List Datum) :=
  match hash_lookup hash_map key with
  | none => none
  | some v =>
    let hash_index := int32_of_uint32 v
    if hash_index > 0 then
      if hash_index.toNat < values.length then some (values.set hash_index.toNat datum)
      else none
    else some values

/-- Body of `while (fgets (line, sizeof (line), fp))` for the buffer `buf` that `fgets`
filled. The flag of the result is `false` when the body left the loop by `break`. -/
def get_smaps_line (hash_map : Table) (st : smap_state) (buf : List CChar) :
    Option (smap_state × Bool) :=
  let line := c_str buf
  if line.length < 1 then some (st, false)
  else if !st.in_region then
    let h := sscanf_header line
    if h.matched = 0 then some (st, false)
    else
      let values := st.values.set SMAP_START_ADDRESS (Datum.text h.start_addr)
      let values := values.set SMAP_END_ADDRESS (Datum.text h.end_addr)
      let values := values.set SMAP_PERMISSIONS (Datum.text h.perms)
      let values := values.set SMAP_OFFSET (Datum.text h.offset)
      let values := values.set SMAP_DEV_MAJOR (Datum.text h.dev_major)
      let values := values.set SMAP_DEV_MINOR (Datum.text h.dev_minor)
      let values := values.set SMAP_INODE (Datum.int32 h.inode)
      let values := values.set SMAP_PATH (Datum.text h.path)
      some ({ st with in_region := true, values := values }, true)
  else
    let first := sscanf_int line [] 0
    let stored : Option (List Datum × CString) :=
      if first.1 = 2 then
        (store_field hash_map st.values first.2.1 (Datum.int32 first.2.2)).map
          fun values => (values, first.2.1)
      else
        let second := sscanf_text line first.2.1 []
        if second.1 = 2 then
          (store_field hash_map st.values second.2.1 (Datum.text second.2.2)).map
            fun values => (values, second.2.1)
        else some (st.values, second.2.1)
    match stored with
    | none => none
    | some (values, key) =>
      if key = cstr "VmFlags" then
        some ({ values := values, in_region := false, rows := st.rows ++ [values] }, true)
      else some ({ st with values := values }, true)

/-- The line loop over the buffers that the successive `fgets` calls fill, until one of
them leaves by `break` or the file ends. The flag tells whether the file was read to its
end. -/
def get_smaps_lines (hash_map : Table) : List (List CChar) → smap_state →
    Option (smap_state × Bool)
  | [], st => some (st, true)
  | buf :: rest, st =>
    match get_smaps_line hash_map st buf with
    | none => none
    | some (st, true) => get_smaps_lines hash_map rest st
    | some (st, false) => some (st, false)

/-- The chars one `fgets` call stores: the chars of the file up to and including the first
newline, `n` chars at most; with them, what is left of the file. -/
def fgets_chars : Nat → List CChar → List CChar × List CChar
  | 0, fp => ([], fp)
  | _ + 1, [] => ([], [])
  | n + 1, c :: fp =>
    if c = 10 then ([c], fp)
    else
      let r := fgets_chars n fp
      (c :: r.1, r.2)

/-- One call `fgets (line, size, fp)` on the unread part `fp` of the file: `none` (NULL)
at the end of the file, else the buffer it filled (`size - 1` chars at most) and the part
still unread. -/
def fgets (size : Nat) (fp : List CChar) : Option (List CChar × List CChar) :=
  if fp = [] then none else some (fgets_chars (size - 1) fp)

/-- The loop `while (fgets (line, sizeof (line), fp)) { ... }` on the unread part `fp` of
the file, `line` being `char line[512]`. The flag tells whether the file was read to its
end. -/
def get_smaps_file (hash_map : Table) : Nat → List CChar → smap_state →
    Option (smap_state × Bool)
  | 0, _, _ => none
  | fuel + 1, fp, st =>
    match fgets 512 fp with
    | none => some (st, true)
    | some (buf, fp) =>
      match get_smaps_line hash_map st buf with
      | none => none
      | some (st, true) => get_smaps_file hash_map fuel fp st
      | some (st, false) => some (st, false)

/-- The key a line is filed under: what the two field `sscanf` calls leave in `key`. -/
def line_key (buf : List CChar) : CString :=
  match scan_set in_key 20 (c_str buf) with
  | none => []
  | some (k, _) => k

/-! ## Notions used to state the properties -/

/-- The shape the two probe loops share; `stay` is the loop condition on the bucket at
hand. -/
def probe_loop (map : Table) (stay : hash_item → Bool) : Nat → Nat → Nat → Option (Nat × Nat)
  | 0, _, _ => none
  | fuel + 1, bucket, tries =>
    if stay (map bucket) then
      if tries + 1 = HASH_TABLE_SIZE / 2 then some (next_bucket bucket, tries + 1)
      else probe_loop map stay fuel (next_bucket bucket) (tries + 1)
    else some (bucket, tries)

/-- The bucket `j` probe steps after the base bucket of key `s`. -/
def probe_bucket (s : CString) (j : Nat) : Nat :=
  (hash_str s % HASH_TABLE_SIZE + j) % HASH_TABLE_SIZE

/-- An empty bucket (stored hash 0, as `hash_insert` tests it) lies within
`HASH_TABLE_SIZE / 2` probe steps of the base bucket of `s`. -/
def found_empty (map : Table) (s : CString) : Prop :=
  ∃ j, j ≤ HASH_TABLE_SIZE / 2 ∧ (map (probe_bucket s j)).hash = 0

instance (map : Table) (s : CString) : Decidable (found_empty map s) := by
  unfold found_empty; infer_instance

/-- Every insert of the preload loop over `kvs`, started on `map`, found an empty bucket
within the probe bound. -/
def inserts_found_empty (map : Table) : List (CString × Nat) → Prop
  | [] => True
  | (key, value) :: rest =>
    found_empty map key ∧
      match hash_insert map key value with
      | none => False
      | some (map, _) => inserts_found_empty map rest

instance inserts_found_empty_decidable :
    (map : Table) → (kvs : List (CString × Nat)) → Decidable (inserts_found_empty map kvs)
  | _, [] => isTrue trivial
  | map, (key, value) :: rest =>
    match h : hash_insert map key value with
    | none => isFalse (by simp [inserts_found_empty, h])
    | some (map2, r) =>
      match inserts_found_empty_decidable map2 rest with
      | isTrue h2 =>
        if h1 : found_empty map key then isTrue (by simp [inserts_found_empty, h, h1, h2])
        else isFalse (by simp [inserts_found_empty, h1])
      | isFalse h2 => isFalse (by simp [inserts_found_empty, h, h2])

/-- What `hash_lookup` answers for `key` once the preload loop over `kvs` has run on a
fresh table. -/
def lookup_after (kvs : List (CString × Nat)) (key : CString) : Option Nat :=
  match insert_all hash_map_create kvs with
  | none => none
  | some map => hash_lookup map key

/-- The entry of key `s` with value `v` is the first bucket with the hash of `s` on the
probe path of `s`, and no bucket before it on the path is empty. -/
def reachable (map : Table) (s : CString) (v : Nat) : Prop :=
  ∃ j, j ≤ HASH_TABLE_SIZE / 2 ∧
    map (probe_bucket s j) = { hash := hash_str s, value := v } ∧
    ∀ i, i < j → (map (probe_bucket s i)).hash ≠ 0 ∧ (map (probe_bucket s i)).hash ≠ hash_str s

/-- A table in which every bucket is taken. -/
def full_table : Table := fun _ => { hash := 1, value := 7 }

/-- A decimal numeral: an optional `-`, then one digit or more. -/
def is_decimal (num : CString) : Bool :=
  match num with
  | [] => false
  | c :: ds => if c = 45 then !ds.isEmpty && ds.all isdigit else isdigit c && ds.all isdigit

/-- The integer a decimal numeral denotes. -/
def decimal_value (num : CString) : Int :=
  match num with
  | [] => 0
  | c :: ds => if c = 45 then -digits_value ds else digits_value (c :: ds)

/-- Flags text: lower-case two-letter flags, one space between neighbours. -/
def is_flags : CString → Bool
  | [a, b] => islower a && islower b
  | a :: b :: c :: rest => islower a && islower b && decide (c = 32) && is_flags rest
  | _ => false

/-- The field line `<name>: <num>` with its newline. -/
def int_line (name num : CString) : List CChar := name ++ cstr ": " ++ num ++ cstr "\n"

/-- The closing line `VmFlags: <flags>` with its newline. -/
def flags_line (flags : CString) : List CChar := cstr "VmFlags: " ++ flags ++ cstr "\n"

/-- The `values` array after the integer field lines `fields` were stored in order; a
field is the pair from `smap_mappings` and the numeral of its line. -/
def store_ints (values : List Datum) (fields : List ((CString × Nat) × CString)) : List Datum :=
  fields.foldl (fun vs f => vs.set f.1.2 (Datum.int32 (decimal_value f.2))) values

/-- A header line as `/proc/<pid>/smaps` prints it, path included. -/
def sample_header : List CChar :=
  cstr "55d0a1c00000-55d0a1c21000 r--p 00000000 fd:01 1234567 /usr/bin/postgres\n"

/-- A header line of an anonymous mapping: no path. -/
def sample_header_anon : List CChar := cstr "7ffc1000-7ffc2000 rw-p 00000000 00:00 0\n"

/-- A file of one whole region: header, `Rss: 120`, `VmFlags: rd wr`. -/
def sample_region : List (List CChar) :=
  [sample_header, cstr "Rss: 120\n", cstr "VmFlags: rd wr\n"]

/-- The state of the line loop after `sample_region` was read for backend 7. -/
def sample_state : smap_state :=
  match get_smaps_lines smap_table sample_region (smap_init 7) with
  | some (st, _) => st
  | none => smap_init 7

/-- The bucket indices at which the condition of a probe loop reads `map[bucket]`, in the
order of the reads; `stay` is the loop condition, as in `probe_loop`. -/
def probe_reads (map : Table) (stay : hash_item → Bool) : Nat → Nat → Nat → List Nat
  | 0, _, _ => []
  | fuel + 1, bucket, tries =>
    if stay (map bucket) then
      if tries + 1 = HASH_TABLE_SIZE / 2 then [bucket]
      else bucket :: probe_reads map stay fuel (next_bucket bucket) (tries + 1)
    else [bucket]

/-- What the `VmFlags` slot holds once the loop body has handled the line `buf` of key
`VmFlags` inside a region, given what the slot held before: the number when the integer
format converted two items, else the text when the text format did, else what it held. -/
def vmflags_slot_after (before : Option Datum) (buf : List CChar) : Option Datum :=
  let first := sscanf_int (c_str buf) [] 0
  if first.1 = 2 then some (Datum.int32 first.2.2)
  else
    let second := sscanf_text (c_str buf) first.2.1 []
    if second.1 = 2 then some (Datum.text second.2.2) else before

/-- The line takes the text branch of the loop body: the integer format does not convert
two items and the text format does. -/
def takes_text_branch (buf : List CChar) : Bool :=
  let first := sscanf_int (c_str buf) [] 0
  decide (first.1 ≠ 2) && decide ((sscanf_text (c_str buf) first.2.1 []).1 = 2)

/-- The table after `Rss` was inserted twice into a fresh table, with values 1 and 2. -/
def twice_table : Table :=
  match insert_all hash_map_create [(cstr "Rss", 1), (cstr "Rss", 2)] with
  | some map => map
  | none => hash_map_create

/-- The state of the line loop for backend 7 once `sample_header` was read: inside a
region, no row handed over. -/
def sample_open_state : smap_state :=
  match get_smaps_lines smap_table [sample_header] (smap_init 7) with
  | some (st, _) => st
  | none => smap_init 7

/-- Every numeric field slot, `SMAP_SIZE .. SMAP_THP_ELIGIBLE`, of `values` holds an
`Int32GetDatum`. -/
def numeric_slots_int (values : List Datum) : Prop :=
  ∀ i : Nat, SMAP_SIZE ≤ i → i ≤ SMAP_THP_ELIGIBLE → ∃ v, values[i]? = some (Datum.int32 v)

/-- The list `l` is one line of at most `n` chars: its last char is a newline and no
other char of it is. -/
def whole_line_within : Nat → List CChar → Bool
  | _, [] => false
  | 0, _ :: _ => false
  | n + 1, c :: l => if c = 10 then l.isEmpty else whole_line_within n l

/-- A line that one `fgets` call into `char line[512]` reads whole: at most 511 chars, the
closing newline among them. -/
def whole_line (l : List CChar) : Bool := whole_line_within 511 l

/-- A header line of 526 chars: the path is `/`, 456 times `a`, then `VmFlags/lib.so`, and
the 512th char of the line is the `V`. -/
def long_header : List CChar :=
  cstr "55d0a1c00000-55d0a1c21000 r--p 00000000 fd:01 1234567 /"
    ++ List.replicate 456 97 ++ cstr "VmFlags/lib.so\n"

/-! # Properties

## The probe loops -/

theorem next_bucket_eq {b : Nat} (hb : b < HASH_TABLE_SIZE) :
    next_bucket b = (b + 1) % HASH_TABLE_SIZE := by
  unfold next_bucket
  simp only [HASH_TABLE_SIZE] at *
  split <;> omega

theorem lookup_loop_eq_probe (map : Table) (hash : Nat) (fuel bucket tries : Nat) :
    lookup_loop map hash fuel bucket tries
      = probe_loop map (fun item => decide (item.hash ≠ hash)) fuel bucket tries := by
  induction fuel generalizing bucket tries with
  | zero => rfl
  | succ fuel ih => simp [lookup_loop, probe_loop, ih]

theorem insert_loop_eq_probe (map : Table) (fuel bucket tries : Nat) :
    insert_loop map fuel bucket tries
      = probe_loop map (fun item => decide (item.hash > 0)) fuel bucket tries := by
  induction fuel generalizing bucket tries with
  | zero => rfl
  | succ fuel ih => simp [insert_loop, probe_loop, ih]

/-- The loop leaves at offset `j` when the condition held at the `j` offsets before it and
either fails at offset `j` or the bound is reached there. -/
theorem probe_loop_exit (map : Table) (stay : hash_item → Bool) :
    ∀ (j fuel b t : Nat), b < HASH_TABLE_SIZE → j < fuel → t + j ≤ HASH_TABLE_SIZE / 2 →
      (∀ i, i < j → stay (map ((b + i) % HASH_TABLE_SIZE)) = true) →
      (t + j = HASH_TABLE_SIZE / 2 ∧ 0 < j ∨ stay (map ((b + j) % HASH_TABLE_SIZE)) = false) →
      probe_loop map stay fuel b t = some ((b + j) % HASH_TABLE_SIZE, t + j) := by
  intro j
  induction j with
  | zero =>
    intro fuel b t hb hfuel _ _ hexit
    obtain ⟨fuel, rfl⟩ : ∃ f, fuel = f + 1 := ⟨fuel - 1, by omega⟩
    have hb0 : (b + 0) % HASH_TABLE_SIZE = b := by
      simp only [HASH_TABLE_SIZE] at *; omega
    rcases hexit with ⟨_, h⟩ | h
    · omega
    · rw [hb0] at h
      have hb1 : b % HASH_TABLE_SIZE = b := Nat.mod_eq_of_lt hb
      simp [probe_loop, h, hb1]
  | succ j ih =>
    intro fuel b t hb hfuel hle hstay hexit
    obtain ⟨fuel, rfl⟩ : ∃ f, fuel = f + 1 := ⟨fuel - 1, by omega⟩
    have hb0 : (b + 0) % HASH_TABLE_SIZE = b := by
      simp only [HASH_TABLE_SIZE] at *; omega
    have h0 : stay (map b) = true := by
      have := hstay 0 (by omega)
      rwa [hb0] at this
    have hnb : next_bucket b < HASH_TABLE_SIZE := by
      rw [next_bucket_eq hb]; exact Nat.mod_lt _ (by decide)
    have hshift : ∀ i, (next_bucket b + i) % HASH_TABLE_SIZE
        = (b + (i + 1)) % HASH_TABLE_SIZE := by
      intro i
      rw [next_bucket_eq hb]
      simp only [HASH_TABLE_SIZE] at *; omega
    by_cases hbound : t + 1 = HASH_TABLE_SIZE / 2
    · have hj : j = 0 := by omega
      subst hj
      have := hshift 0
      simp only [Nat.add_zero, Nat.zero_add] at this
      have hnb0 : next_bucket b % HASH_TABLE_SIZE = next_bucket b := Nat.mod_eq_of_lt hnb
      simp [probe_loop, h0, hbound, ← this, hnb0]
    · have hrec := ih fuel (next_bucket b) (t + 1) hnb (by omega) (by omega)
        (by
          intro i hi
          rw [hshift i]
          exact hstay (i + 1) (by omega))
        (by
          rcases hexit with ⟨h1, _⟩ | h
          · by_cases hj : 0 < j
            · exact Or.inl ⟨by omega, hj⟩
            · exfalso; omega
          · right
            rw [hshift j]
            exact h)
      simp only [probe_loop, h0, hbound, if_true, if_false]
      rw [hrec, hshift j]
      congr 2
      omega

/-- From a bucket of the table and `tries = 0` the loop always leaves, at an offset of
at most `HASH_TABLE_SIZE / 2`, after the condition held at every offset before it. -/
theorem probe_loop_total (map : Table) (stay : hash_item → Bool) (b : Nat)
    (hb : b < HASH_TABLE_SIZE) :
    ∃ j, j ≤ HASH_TABLE_SIZE / 2 ∧
      probe_loop map stay HASH_TABLE_SIZE b 0 = some ((b + j) % HASH_TABLE_SIZE, j) ∧
      (∀ i, i < j → stay (map ((b + i) % HASH_TABLE_SIZE)) = true) ∧
      (j < HASH_TABLE_SIZE / 2 → stay (map ((b + j) % HASH_TABLE_SIZE)) = false) := by
  classical
  have hex : ∃ i, HASH_TABLE_SIZE / 2 ≤ i ∨ stay (map ((b + i) % HASH_TABLE_SIZE)) = false :=
    ⟨HASH_TABLE_SIZE / 2, Or.inl (le_refl _)⟩
  let j := Nat.find hex
  have hj : HASH_TABLE_SIZE / 2 ≤ j ∨ stay (map ((b + j) % HASH_TABLE_SIZE)) = false :=
    Nat.find_spec hex
  have hmin : ∀ i, i < j → stay (map ((b + i) % HASH_TABLE_SIZE)) = true := by
    intro i hi
    have := Nat.find_min hex hi
    simp only [not_or, Bool.not_eq_false] at this
    exact this.2
  have hle : j ≤ HASH_TABLE_SIZE / 2 := Nat.find_min' hex (Or.inl (le_refl _))
  have hhalf : HASH_TABLE_SIZE / 2 = 32 := by decide
  refine ⟨j, hle, ?_, hmin, ?_⟩
  · have := probe_loop_exit map stay j HASH_TABLE_SIZE b 0 hb
      (by simp only [HASH_TABLE_SIZE] at *; omega) (by omega) hmin
      (by
        rcases hj with h | h
        · left; omega
        · right; exact h)
    simpa using this
  · intro hlt
    rcases hj with h | h
    · omega
    · exact h

/-! ## `hash_lookup` and `hash_insert` in terms of probe offsets -/

theorem base_bucket_lt (s : CString) : hash_str s % HASH_TABLE_SIZE < HASH_TABLE_SIZE :=
  Nat.mod_lt _ (by decide)

theorem probe_bucket_lt (s : CString) (j : Nat) : probe_bucket s j < HASH_TABLE_SIZE :=
  Nat.mod_lt _ (by decide)

/-- The bucket `hash_lookup` answers from: the first one within the bound whose stored
hash is the hash of the key. -/
theorem hash_lookup_of_chain (map : Table) (s : CString) (j : Nat)
    (hj : j ≤ HASH_TABLE_SIZE / 2)
    (hhit : (map (probe_bucket s j)).hash = hash_str s)
    (hmiss : ∀ i, i < j → (map (probe_bucket s i)).hash ≠ hash_str s) :
    hash_lookup map s = some (map (probe_bucket s j)).value := by
  have hhalf : HASH_TABLE_SIZE / 2 = 32 := by decide
  have hexit := probe_loop_exit map (fun item => decide (item.hash ≠ hash_str s)) j
    HASH_TABLE_SIZE (hash_str s % HASH_TABLE_SIZE) 0 (base_bucket_lt s)
    (by simp only [HASH_TABLE_SIZE] at *; omega) (by omega)
    (by intro i hi; simpa [probe_bucket] using hmiss i hi)
    (by right; simpa [probe_bucket] using hhit)
  have hlt : j < HASH_TABLE_SIZE := by simp only [HASH_TABLE_SIZE] at *; omega
  unfold hash_lookup
  simp only [lookup_loop_eq_probe, hexit, Nat.zero_add, hlt, if_true]
  rfl

/-- Totality of `hash_lookup`: it always returns, with the value of a bucket at most
`HASH_TABLE_SIZE / 2` steps after the base bucket. -/
theorem hash_lookup_total (map : Table) (s : CString) :
    ∃ j, j ≤ HASH_TABLE_SIZE / 2 ∧ hash_lookup map s = some (map (probe_bucket s j)).value := by
  obtain ⟨j, hj, hloop, _, _⟩ := probe_loop_total map
    (fun item => decide (item.hash ≠ hash_str s)) (hash_str s % HASH_TABLE_SIZE)
    (base_bucket_lt s)
  have hhalf : HASH_TABLE_SIZE / 2 = 32 := by decide
  have hlt : j < HASH_TABLE_SIZE := by simp only [HASH_TABLE_SIZE] at *; omega
  refine ⟨j, hj, ?_⟩
  unfold hash_lookup
  simp only [lookup_loop_eq_probe, hloop, hlt, if_true]
  rfl

/-- A key is seen by `hash_lookup` through its hash only. -/
theorem hash_lookup_congr (map : Table) (a b : CString) (h : hash_str a = hash_str b) :
    hash_lookup map a = hash_lookup map b := by
  unfold hash_lookup
  rw [h]

/-- The bucket `hash_insert` writes: the one at offset `j` when the buckets at the
offsets before it hold a non-zero hash and either bucket `j` holds hash 0 or `j` is the
bound. -/
theorem hash_insert_at (map : Table) (s : CString) (value : Nat) (j : Nat)
    (hj : j ≤ HASH_TABLE_SIZE / 2)
    (hfull : ∀ i, i < j → (map (probe_bucket s i)).hash ≠ 0)
    (hfree : j = HASH_TABLE_SIZE / 2 ∨ (map (probe_bucket s j)).hash = 0) :
    hash_insert map s value
      = some (map.store (probe_bucket s j) { hash := hash_str s, value := value }, 1) := by
  have hhalf : HASH_TABLE_SIZE / 2 = 32 := by decide
  have hexit := probe_loop_exit map (fun item => decide (item.hash > 0)) j
    HASH_TABLE_SIZE (hash_str s % HASH_TABLE_SIZE) 0 (base_bucket_lt s)
    (by simp only [HASH_TABLE_SIZE] at *; omega) (by omega)
    (by
      intro i hi
      have := hfull i hi
      simp only [probe_bucket] at this
      simp only [decide_eq_true_eq]
      omega)
    (by
      by_cases h0 : (map (probe_bucket s j)).hash = 0
      · right
        simp only [probe_bucket] at h0
        simp only [decide_eq_false_iff_not]
        omega
      · left
        rcases hfree with h | h
        · exact ⟨by omega, by omega⟩
        · exact absurd h h0)
  have hlt : j < HASH_TABLE_SIZE := by simp only [HASH_TABLE_SIZE] at *; omega
  unfold hash_insert
  simp only [insert_loop_eq_probe, hexit, Nat.zero_add, hlt, if_true]
  rfl

/-- Totality of `hash_insert`: it always returns 1, having written the bucket at the first offset at which
the stored hash is 0 or the bound is reached. -/
theorem hash_insert_total (map : Table) (s : CString) (value : Nat) :
    ∃ j, j ≤ HASH_TABLE_SIZE / 2 ∧
      (∀ i, i < j → (map (probe_bucket s i)).hash ≠ 0) ∧
      (j < HASH_TABLE_SIZE / 2 → (map (probe_bucket s j)).hash = 0) ∧
      hash_insert map s value
        = some (map.store (probe_bucket s j) { hash := hash_str s, value := value }, 1) := by
  obtain ⟨j, hj, _, hstay, hstop⟩ := probe_loop_total map
    (fun item => decide (item.hash > 0)) (hash_str s % HASH_TABLE_SIZE) (base_bucket_lt s)
  have hfull : ∀ i, i < j → (map (probe_bucket s i)).hash ≠ 0 := by
    intro i hi
    have := hstay i hi
    simp only [decide_eq_true_eq] at this
    simp only [probe_bucket]
    omega
  have hfree : j < HASH_TABLE_SIZE / 2 → (map (probe_bucket s j)).hash = 0 := by
    intro hlt
    have := hstop hlt
    simp only [decide_eq_false_iff_not] at this
    simp only [probe_bucket]
    omega
  refine ⟨j, hj, hfull, hfree, hash_insert_at map s value j hj hfull ?_⟩
  by_cases h : j < HASH_TABLE_SIZE / 2
  · exact Or.inr (hfree h)
  · left; omega

theorem store_same (map : Table) (b : Nat) (item : hash_item) : map.store b item b = item := by
  simp [Table.store]

theorem store_other (map : Table) (b i : Nat) (item : hash_item) (h : i ≠ b) :
    map.store b item i = map i := by
  simp [Table.store, h]

/-- The first offset with an empty bucket, when there is one within the bound. -/
theorem first_empty_offset (map : Table) (s : CString) (h : found_empty map s) :
    ∃ j, j ≤ HASH_TABLE_SIZE / 2 ∧ (map (probe_bucket s j)).hash = 0 ∧
      ∀ i, i < j → (map (probe_bucket s i)).hash ≠ 0 := by
  classical
  have hex : ∃ j, (map (probe_bucket s j)).hash = 0 := by
    obtain ⟨j, _, hj⟩ := h
    exact ⟨j, hj⟩
  obtain ⟨j0, hj0, hempty⟩ := h
  refine ⟨Nat.find hex, ?_, Nat.find_spec hex, ?_⟩
  · exact le_trans (Nat.find_min' hex hempty) hj0
  · intro i hi
    exact Nat.find_min hex hi

/-! ## Tables built by a run of inserts -/

theorem reachable_lookup (map : Table) (s : CString) (v : Nat) (h : reachable map s v) :
    hash_lookup map s = some v := by
  obtain ⟨j, hj, hat, hchain⟩ := h
  have := hash_lookup_of_chain map s j hj (by rw [hat]) (fun i hi => (hchain i hi).2)
  rw [this, hat]

theorem insert_all_reachable :
    ∀ (rest done : List (CString × Nat)) (map : Table),
      (∀ i, (map i).hash ≠ 0 → ∃ p ∈ done, (map i).hash = hash_str p.1) →
      (∀ p ∈ done, reachable map p.1 p.2) →
      ((done ++ rest).map fun p => hash_str p.1).Nodup →
      (∀ p ∈ done ++ rest, hash_str p.1 ≠ 0) →
      inserts_found_empty map rest →
      ∃ t, insert_all map rest = some t ∧ ∀ p ∈ done ++ rest, reachable t p.1 p.2 := by
  intro rest
  induction rest with
  | nil =>
    intro done map _ hreach _ _ _
    exact ⟨map, rfl, by simpa using hreach⟩
  | cons kv rest ih =>
    obtain ⟨k, v⟩ := kv
    intro done map howner hreach hnodup hnz hfound
    obtain ⟨hfe, hrest⟩ := hfound
    obtain ⟨j, hj, hzero, hfull⟩ := first_empty_offset map k hfe
    have hins := hash_insert_at map k v j hj hfull (Or.inr hzero)
    rw [hins] at hrest
    simp only at hrest
    have hk0 : hash_str k ≠ 0 := hnz (k, v) (by simp)
    have hfresh : ∀ q ∈ done, hash_str q.1 ≠ hash_str k := by
      intro q hq heq
      rw [List.map_append, List.nodup_append] at hnodup
      have hdis := hnodup.2.2
      exact hdis (List.mem_map_of_mem (fun p => hash_str p.1) hq)
        (by rw [heq]; simp)
    have key := ih (done ++ [(k, v)])
      (map.store (probe_bucket k j) { hash := hash_str k, value := v })
      (by
        intro i hi
        by_cases hib : i = probe_bucket k j
        · subst hib
          exact ⟨(k, v), by simp, by rw [store_same]⟩
        · rw [store_other _ _ _ _ hib] at hi ⊢
          obtain ⟨p, hp, hpe⟩ := howner i hi
          exact ⟨p, by simp [hp], hpe⟩)
      (by
        intro p hp
        rw [List.mem_append, List.mem_singleton] at hp
        rcases hp with hp | rfl
        · obtain ⟨j2, hj2, hat, hchain⟩ := hreach p hp
          have hp0 : hash_str p.1 ≠ 0 := hnz p (by simp [hp])
          refine ⟨j2, hj2, ?_, ?_⟩
          · rw [store_other _ _ _ _ (by
              intro heq
              rw [heq] at hat
              rw [hat] at hzero
              exact hp0 hzero)]
            exact hat
          · intro i hi
            rw [store_other _ _ _ _ (by
              intro heq
              have := (hchain i hi).1
              rw [heq] at this
              exact this hzero)]
            exact hchain i hi
        · refine ⟨j, hj, store_same _ _ _, ?_⟩
          intro i hi
          have hne : (map (probe_bucket k i)).hash ≠ 0 := hfull i hi
          rw [store_other _ _ _ _ (by
            intro heq
            rw [heq] at hne
            exact hne hzero)]
          refine ⟨hne, ?_⟩
          obtain ⟨q, hq, hqe⟩ := howner _ hne
          rw [hqe]
          exact hfresh q hq)
      (by simpa using hnodup)
      (by
        intro p hp
        exact hnz p (by simpa using hp))
      hrest
    obtain ⟨t, ht, hall⟩ := key
    refine ⟨t, ?_, ?_⟩
    · simp only [insert_all, hins]
      exact ht
    · intro p hp
      exact hall p (by simpa using hp)

/-- The preload loop always runs to its end. -/
theorem insert_all_total (kvs : List (CString × Nat)) (map : Table) :
    ∃ t, insert_all map kvs = some t := by
  induction kvs generalizing map with
  | nil => exact ⟨map, rfl⟩
  | cons kv rest ih =>
    obtain ⟨k, v⟩ := kv
    obtain ⟨j, _, _, _, hins⟩ := hash_insert_total map k v
    obtain ⟨t, ht⟩ := ih (map.store (probe_bucket k j) { hash := hash_str k, value := v })
    exact ⟨t, by simp only [insert_all, hins]; exact ht⟩

/-- The preloaded table is what the preload loop returns. -/
theorem insert_all_smap_table :
    insert_all hash_map_create smap_mappings = some smap_table := by
  obtain ⟨t, ht⟩ := insert_all_total smap_mappings hash_map_create
  unfold smap_table
  rw [ht]

/-- Every registered name is answered with its slot on the preloaded table. -/
theorem smap_table_lookup :
    ∀ p ∈ smap_mappings, hash_lookup smap_table p.1 = some p.2 := by
  decide

/-- Every bucket of the preloaded table holds 0 or a field slot. -/
theorem smap_table_values :
    ∀ i, i < HASH_TABLE_SIZE → (smap_table i).value = 0 ∨
      (SMAP_SIZE ≤ (smap_table i).value ∧ (smap_table i).value ≤ SMAP_VM_FLAGS) := by
  decide

/-- On the preloaded table `hash_lookup` returns 0 or a field slot, whatever the key. -/
theorem smap_table_lookup_range (key : CString) :
    ∃ v, hash_lookup smap_table key = some v ∧
      (v = 0 ∨ (SMAP_SIZE ≤ v ∧ v ≤ SMAP_VM_FLAGS)) := by
  obtain ⟨j, _, hj⟩ := hash_lookup_total smap_table key
  exact ⟨_, hj, smap_table_values _ (probe_bucket_lt key j)⟩

/-! ## The symbol table: claims C1 to C6 -/

/-- C1, as amended: for every table built from the empty table by a run of `hash_insert`
calls on keys whose hashes are pairwise distinct and not 0, each of which found an empty
bucket within `HASH_TABLE_SIZE / 2` probe steps of its base bucket, the run returns and
`hash_lookup` of every inserted key returns the value inserted with it, whatever keys
were inserted before or after it and whichever base buckets they share. -/
theorem hash_lookup_after_inserts (kvs : List (CString × Nat))
    (hdistinct : (kvs.map fun p => hash_str p.1).Nodup)
    (hnonzero : ∀ p ∈ kvs, hash_str p.1 ≠ 0)
    (hfound : inserts_found_empty hash_map_create kvs) :
    ∃ map, insert_all hash_map_create kvs = some map ∧
      ∀ p ∈ kvs, hash_lookup map p.1 = some p.2 := by
  obtain ⟨t, ht, hall⟩ := insert_all_reachable kvs [] hash_map_create
    (by intro i hi; exact absurd rfl hi)
    (by intro p hp; cases hp)
    (by simpa using hdistinct)
    (by simpa using hnonzero)
    hfound
  exact ⟨t, ht, fun p hp => reachable_lookup t p.1 p.2 (hall p (by simpa using hp))⟩

/-- Witness of C1 as amended: the 24 pairs of `smap_mappings`, among them names that share
a base bucket (`Rss` and `FilePmdMapped`, both 61). -/
theorem hash_lookup_after_inserts_witness :
    (smap_mappings.map fun p => hash_str p.1).Nodup ∧
      (∀ p ∈ smap_mappings, hash_str p.1 ≠ 0) ∧
      inserts_found_empty hash_map_create smap_mappings ∧
      hash_str (cstr "Rss") % HASH_TABLE_SIZE = hash_str (cstr "FilePmdMapped") % HASH_TABLE_SIZE ∧
      ∃ map, insert_all hash_map_create smap_mappings = some map ∧
        ∀ p ∈ smap_mappings, hash_lookup map p.1 = some p.2 :=
  ⟨by decide, by decide, by decide, by decide,
    hash_lookup_after_inserts smap_mappings (by decide) (by decide) (by decide)⟩

/-- C1 as stated fails. The keys `ab` and `bA` are distinct, hash alike, and both inserts
find an empty bucket, yet `hash_lookup` of `bA` returns the value of `ab`. And the key
`mgenanad` hashes to 0: its entry still counts as empty, the insert of `Size` takes its
bucket, and `hash_lookup` of `mgenanad` returns 0 instead of 5. -/
theorem distinct_keys_lookup_wrong_value :
    ([(cstr "ab", 1), (cstr "bA", 2)].map Prod.fst).Nodup ∧
      inserts_found_empty hash_map_create [(cstr "ab", 1), (cstr "bA", 2)] ∧
      lookup_after [(cstr "ab", 1), (cstr "bA", 2)] (cstr "bA") = some 1 ∧
      ([(cstr "mgenanad", 5), (cstr "Size", 9)].map Prod.fst).Nodup ∧
      hash_str (cstr "mgenanad") = 0 ∧ hash_str (cstr "Size") ≠ 0 ∧
      inserts_found_empty hash_map_create [(cstr "mgenanad", 5), (cstr "Size", 9)] ∧
      lookup_after [(cstr "mgenanad", 5), (cstr "Size", 9)] (cstr "mgenanad") = some 0 := by
  decide

/-- C2: the preload loop over the 24 pairs of `smap_mappings`, run on the zeroed table,
returns the table `smap_table`; on it `hash_lookup` of each of the 24 names returns that
name's own slot (`Rss` gives 12, `VmFlags` gives 32), and exactly 24 buckets are taken. -/
theorem smap_preload_lookup :
    insert_all hash_map_create smap_mappings = some smap_table ∧
      smap_mappings.length = 24 ∧
      (∀ p ∈ smap_mappings, hash_lookup smap_table p.1 = some p.2) ∧
      hash_lookup smap_table (cstr "Rss") = some SMAP_RSS ∧ SMAP_RSS = 12 ∧
      hash_lookup smap_table (cstr "VmFlags") = some SMAP_VM_FLAGS ∧ SMAP_VM_FLAGS = 32 ∧
      occupied smap_table = 24 :=
  ⟨insert_all_smap_table, by decide, by decide, by decide, by decide, by decide, by decide,
    by decide⟩

/-- C3 fails on the code: `a` is none of the 24 names and the hash of `a` is stored in no
bucket, yet `hash_lookup` returns 14, the slot of `Pss_Dirty`. The probe starts at bucket
6, gives up after 32 steps at bucket 38, and the value of that bucket is returned because
the test `tries < HASH_TABLE_SIZE` cannot fail. -/
theorem hash_lookup_unregistered_key :
    cstr "a" ∉ smap_mappings.map Prod.fst ∧
      (∀ i, i < HASH_TABLE_SIZE → (smap_table i).hash ≠ hash_str (cstr "a")) ∧
      hash_str (cstr "a") % HASH_TABLE_SIZE = 6 ∧
      lookup_loop smap_table (hash_str (cstr "a")) HASH_TABLE_SIZE 6 0 = some (38, 32) ∧
      smap_table 38 = { hash := hash_str (cstr "Pss_Dirty"), value := SMAP_PSS_DIRTY } ∧
      hash_lookup smap_table (cstr "a") = some SMAP_PSS_DIRTY ∧ SMAP_PSS_DIRTY = 14 := by
  decide

/-- C4 fails on the code: on a table whose 64 buckets are all taken `hash_insert` of
`Rss` returns 1, not 0, and overwrites bucket 29, the one 32 steps after the base bucket
61. -/
theorem hash_insert_full_table :
    (∀ i, i < HASH_TABLE_SIZE → (full_table i).hash ≠ 0) ∧
      hash_str (cstr "Rss") % HASH_TABLE_SIZE = 61 ∧
      ∃ map, hash_insert full_table (cstr "Rss") SMAP_RSS = some (map, 1) ∧
        full_table 29 = { hash := 1, value := 7 } ∧
        map 29 = { hash := hash_str (cstr "Rss"), value := SMAP_RSS } :=
  ⟨by decide, by decide,
    full_table.store 29 { hash := hash_str (cstr "Rss"), value := SMAP_RSS },
    by
      have h := hash_insert_at full_table (cstr "Rss") SMAP_RSS 32 (by decide)
        (by intro i _; exact Nat.one_ne_zero) (Or.inl (by decide))
      have hb : probe_bucket (cstr "Rss") 32 = 29 := by decide
      rw [hb] at h
      exact h,
    rfl, by decide⟩

/-- C5: when an empty bucket lies within `HASH_TABLE_SIZE / 2` probe steps of the base
bucket of the key, `hash_insert` returns 1, writes `(hash_str key, value)` into the first
empty bucket in the order base, base + 1, ... (wrapping to 0 after bucket 63), and leaves
every other bucket as it was. -/
theorem hash_insert_first_empty (map : Table) (s : CString) (value : Nat)
    (h : found_empty map s) :
    ∃ j, j ≤ HASH_TABLE_SIZE / 2 ∧ (map (probe_bucket s j)).hash = 0 ∧
      (∀ i, i < j → (map (probe_bucket s i)).hash ≠ 0) ∧
      ∃ map2, hash_insert map s value = some (map2, 1) ∧
        map2 (probe_bucket s j) = { hash := hash_str s, value := value } ∧
        ∀ i, i ≠ probe_bucket s j → map2 i = map i := by
  obtain ⟨j, hj, hzero, hfull⟩ := first_empty_offset map s h
  exact ⟨j, hj, hzero, hfull, _, hash_insert_at map s value j hj hfull (Or.inr hzero),
    store_same _ _ _, fun i hi => store_other _ _ _ _ hi⟩

/-- Witness of C5: `Rss` (base bucket 61) inserted into a table whose buckets 61, 62, 63
are taken wraps around and lands in bucket 0. -/
theorem hash_insert_first_empty_witness :
    found_empty
        (((hash_map_create.store 61 ⟨7, 7⟩).store 62 ⟨8, 8⟩).store 63 ⟨9, 9⟩) (cstr "Rss") ∧
      probe_bucket (cstr "Rss") 3 = 0 ∧
      ∃ j, j ≤ HASH_TABLE_SIZE / 2 ∧
        ((((hash_map_create.store 61 ⟨7, 7⟩).store 62 ⟨8, 8⟩).store 63 ⟨9, 9⟩)
          (probe_bucket (cstr "Rss") j)).hash = 0 ∧
        (∀ i, i < j →
          ((((hash_map_create.store 61 ⟨7, 7⟩).store 62 ⟨8, 8⟩).store 63 ⟨9, 9⟩)
            (probe_bucket (cstr "Rss") i)).hash ≠ 0) ∧
        ∃ map2,
          hash_insert (((hash_map_create.store 61 ⟨7, 7⟩).store 62 ⟨8, 8⟩).store 63 ⟨9, 9⟩)
            (cstr "Rss") 12 = some (map2, 1) ∧
          map2 (probe_bucket (cstr "Rss") j) = { hash := hash_str (cstr "Rss"), value := 12 } ∧
          ∀ i, i ≠ probe_bucket (cstr "Rss") j →
            map2 i = (((hash_map_create.store 61 ⟨7, 7⟩).store 62 ⟨8, 8⟩).store 63 ⟨9, 9⟩) i :=
  ⟨by decide, by decide, hash_insert_first_empty _ (cstr "Rss") 12 (by decide)⟩

theorem hash_step_eq (h : Nat) (c : CChar) :
    hash_step h c = ((Int.ofNat h * 33 + c) % 2 ^ 32).toNat := by
  unfold hash_step
  have h1 : (Int.ofNat (((h <<< 5) % 2 ^ 32 + h) % 2 ^ 32) : Int)
      = (Int.ofNat h * 33) % 2 ^ 32 := by
    have : ((h <<< 5) % 2 ^ 32 + h) % 2 ^ 32 = (h * 33) % 2 ^ 32 := by
      rw [Nat.shiftLeft_eq]
      omega
    rw [this]
    simp
  simp only [h1, Int.emod_add_emod]

theorem c_str_cons_nul (s : List CChar) : c_str (0 :: s) = [] := by
  simp [c_str]

theorem c_str_cons (c : CChar) (s : List CChar) (hc : c ≠ 0) :
    c_str (c :: s) = c :: c_str s := by
  unfold c_str
  rw [List.takeWhile_cons_of_pos]
  simpa using hc

theorem c_str_idem (s : List CChar) : c_str (c_str s) = c_str s := by
  induction s with
  | nil => rfl
  | cons c s ih =>
    by_cases hc : c = 0
    · subst hc
      rw [c_str_cons_nul]
      rfl
    · rw [c_str_cons c s hc, c_str_cons c _ hc, ih]

theorem hash_str_loop_fold (h : Nat) (s : CString) :
    hash_str_loop h s
      = (c_str s).foldl (fun h c => ((Int.ofNat h * 33 + c) % 2 ^ 32).toNat) h := by
  induction s generalizing h with
  | nil => rfl
  | cons c s ih =>
    by_cases hc : c = 0
    · simp [hash_str_loop, c_str, hc]
    · simp only [hash_str_loop, hc, if_false, c_str, List.takeWhile_cons, ne_eq,
        not_false_eq_true, decide_True, List.foldl_cons]
      rw [ih, hash_step_eq]
      rfl

/-- C6: `hash_str s` is the left fold of `h -> (h * 33 + c) mod 2^32` from 5381 over the
chars of the C string `s` (those before its terminating NUL); the hash of the empty
string is 5381; the shift form `(h << 5) + h`, computed in `uint32_t`, is `h * 33` modulo
`2^32`; and the hash is determined by those chars alone. -/
theorem hash_str_is_djb2 (s : CString) :
    hash_str s = (c_str s).foldl (fun h c => ((Int.ofNat h * 33 + c) % 2 ^ 32).toNat) 5381 ∧
      hash_str [] = 5381 ∧
      (∀ h : Nat, ((h <<< 5) % 2 ^ 32 + h) % 2 ^ 32 = (h * 33) % 2 ^ 32) ∧
      hash_str s = hash_str (c_str s) := by
  refine ⟨hash_str_loop_fold 5381 s, rfl, ?_, ?_⟩
  · intro h
    rw [Nat.shiftLeft_eq]
    omega
  · unfold hash_str
    rw [hash_str_loop_fold, hash_str_loop_fold, c_str_idem]

/-! ## The scan conversions on lines of a known shape -/

theorem c_str_of_no_nul (s : List CChar) (h : ∀ c ∈ s, c ≠ 0) : c_str s = s := by
  induction s with
  | nil => rfl
  | cons c s ih =>
    rw [c_str_cons c s (h c (by simp)), ih (fun d hd => h d (by simp [hd]))]

theorem take_run_append (set : CChar → Bool) (w : Nat) (a : CString) (c : CChar)
    (rest : CString) (ha : ∀ x ∈ a, set x = true) (hc : set c = false) :
    take_run set w (a ++ c :: rest) = a.take w := by
  induction a generalizing w with
  | nil =>
    cases w with
    | zero => rfl
    | succ w => simp [take_run, hc]
  | cons x a ih =>
    cases w with
    | zero => rfl
    | succ w =>
      have hx : set x = true := ha x (by simp)
      show take_run set (w + 1) (x :: (a ++ c :: rest)) = _
      simp only [take_run, hx, if_true, List.take_succ_cons]
      rw [ih w (fun y hy => ha y (by simp [hy]))]

theorem scan_set_append (set : CChar → Bool) (w : Nat) (a : CString) (c : CChar)
    (rest : CString) (ha : ∀ x ∈ a, set x = true) (hc : set c = false)
    (hne : a ≠ []) (hlen : a.length ≤ w) :
    scan_set set w (a ++ c :: rest) = some (a, c :: rest) := by
  unfold scan_set
  rw [take_run_append set w a c rest ha hc, List.take_of_length_le hlen]
  simp [hne]

theorem scan_set_append_take (set : CChar → Bool) (w : Nat) (a : CString) (c : CChar)
    (rest : CString) (ha : ∀ x ∈ a, set x = true) (hc : set c = false)
    (hne : a ≠ []) (hw : 0 < w) :
    ∃ r, scan_set set w (a ++ c :: rest) = some (a.take w, r) := by
  unfold scan_set
  rw [take_run_append set w a c rest ha hc]
  have : a.take w ≠ [] := by
    cases a with
    | nil => exact absurd rfl hne
    | cons x a =>
      cases w with
      | zero => omega
      | succ w => simp
  simp [this]

theorem scan_set_head_fail (set : CChar → Bool) (w : Nat) (c : CChar) (rest : CString)
    (hc : set c = false) : scan_set set w (c :: rest) = none := by
  unfold scan_set
  cases w with
  | zero => simp [take_run]
  | succ w => simp [take_run, hc]

theorem takeWhile_append_stop (p : CChar → Bool) (a : CString) (c : CChar) (rest : CString)
    (ha : ∀ x ∈ a, p x = true) (hc : p c = false) :
    (a ++ c :: rest).takeWhile p = a := by
  induction a with
  | nil => simp [List.takeWhile_cons, hc]
  | cons x a ih =>
    have hx : p x = true := ha x (by simp)
    simp only [List.cons_append, List.takeWhile_cons, hx, if_true]
    rw [ih (fun y hy => ha y (by simp [hy]))]

theorem skip_space_head (c : CChar) (rest : CString) (hc : isspace c = false) :
    skip_space (c :: rest) = c :: rest := by
  simp [skip_space, List.dropWhile_cons, hc]

theorem isdigit_not_space (c : Int) (h : isdigit c = true) : isspace c = false := by
  simp only [isdigit, Bool.and_eq_true, decide_eq_true_eq] at h
  simp only [isspace, Bool.or_eq_false_iff, decide_eq_false_iff_not, Bool.and_eq_false_iff,
    not_le]
  omega

theorem isdigit_not_sign (c : Int) (h : isdigit c = true) : c ≠ 45 ∧ c ≠ 43 := by
  simp only [isdigit, Bool.and_eq_true, decide_eq_true_eq] at h
  omega

theorem int32_of_long_id (v : Int) (hlo : -(2 ^ 31) ≤ v) (hhi : v < 2 ^ 31) :
    int32_of_long v = v := by
  unfold int32_of_long
  have h1 : min v (2 ^ 63 - 1) = v := by
    apply min_eq_left; omega
  have h2 : max (-(2 ^ 63)) v = v := by
    apply max_eq_right; omega
  simp only [h1, h2]
  split <;> omega

/-- Conversion `%d` on a decimal numeral followed by a newline reads the number it
denotes. -/
theorem scan_int_decimal (num : CString) (rest : CString) (hnum : is_decimal num = true)
    (hlo : -(2 ^ 31) ≤ decimal_value num) (hhi : decimal_value num < 2 ^ 31) :
    ∃ r, scan_int (num ++ 10 :: rest) = some (decimal_value num, r) := by
  have hnl : isdigit 10 = false := by decide
  cases num with
  | nil => simp [is_decimal] at hnum
  | cons c ds =>
    by_cases hc : c = 45
    · subst hc
      simp only [is_decimal, if_true, Bool.and_eq_true, Bool.not_eq_true', List.all_eq_true]
        at hnum
      obtain ⟨hne, hds⟩ := hnum
      have hne2 : ds ≠ [] := by
        intro h; subst h; simp at hne
      have hsp : skip_space ((45 : Int) :: ds ++ 10 :: rest) = 45 :: ds ++ 10 :: rest :=
        skip_space_head _ _ (by decide)
      have htw := takeWhile_append_stop isdigit ds 10 rest hds hnl
      have hval : decimal_value (45 :: ds) = -digits_value ds := by simp [decimal_value]
      rw [hval] at hlo hhi ⊢
      unfold scan_int
      simp only [List.cons_append] at hsp ⊢
      rw [hsp]
      simp only [if_true, htw, hne2, if_false]
      rw [int32_of_long_id _ hlo hhi]
      exact ⟨_, rfl⟩
    · simp only [is_decimal, hc, if_false, Bool.and_eq_true, List.all_eq_true] at hnum
      obtain ⟨hcd, hds⟩ := hnum
      have hsp : skip_space (c :: ds ++ 10 :: rest) = c :: ds ++ 10 :: rest :=
        skip_space_head _ _ (isdigit_not_space c hcd)
      have hall : ∀ x ∈ c :: ds, isdigit x = true := by
        intro x hx
        rcases List.mem_cons.mp hx with rfl | hx
        · exact hcd
        · exact hds x hx
      have htw := takeWhile_append_stop isdigit (c :: ds) 10 rest hall hnl
      have hval : decimal_value (c :: ds) = digits_value (c :: ds) := by
        simp [decimal_value, hc]
      rw [hval] at hlo hhi ⊢
      have h43 : c ≠ 43 := (isdigit_not_sign c hcd).2
      unfold scan_int
      simp only [List.cons_append] at hsp htw ⊢
      rw [hsp]
      simp only [hc, h43, if_false, htw, Bool.false_eq_true]
      rw [int32_of_long_id _ hlo hhi]
      simp

/-! ## One line of a region -/

theorem smap_mappings_names :
    ∀ p ∈ smap_mappings,
      p.1 ≠ [] ∧ p.1.length ≤ 20 ∧ (∀ x ∈ p.1, in_key x = true) ∧
        SMAP_SIZE ≤ p.2 ∧ p.2 ≤ SMAP_VM_FLAGS ∧ (p.2 ≠ SMAP_VM_FLAGS → p.1 ≠ cstr "VmFlags") := by
  decide

theorem smap_mappings_slot_inj :
    ∀ p ∈ smap_mappings, ∀ q ∈ smap_mappings, p.2 = q.2 → p.1 = q.1 := by
  decide

theorem in_key_ne_nul (c : Int) (h : in_key c = true) : c ≠ 0 := by
  simp only [in_key, islower, Bool.or_eq_true, Bool.and_eq_true, decide_eq_true_eq] at h
  omega

theorem in_flags_ne_nul (c : Int) (h : in_flags c = true) : c ≠ 0 := by
  simp only [in_flags, islower, Bool.or_eq_true, Bool.and_eq_true, decide_eq_true_eq] at h
  omega

theorem isdigit_ne_nul (c : Int) (h : isdigit c = true) : c ≠ 0 := by
  simp only [isdigit, Bool.and_eq_true, decide_eq_true_eq] at h
  omega

theorem islower_facts (c : Int) (h : islower c = true) :
    in_flags c = true ∧ isspace c = false ∧ isdigit c = false ∧ c ≠ 45 ∧ c ≠ 43 := by
  simp only [islower, Bool.and_eq_true, decide_eq_true_eq] at h
  refine ⟨by simp [in_flags, islower, h], ?_, ?_, by omega, by omega⟩
  · simp only [isspace, Bool.or_eq_false_iff, decide_eq_false_iff_not, Bool.and_eq_false_iff,
      not_le]
    omega
  · simp only [isdigit, Bool.and_eq_false_iff, decide_eq_false_iff_not, not_le]
    omega

/-- A decimal numeral starts with a char that is no white space, and holds no NUL. -/
theorem is_decimal_shape (num : CString) (h : is_decimal num = true) :
    (∃ c ds, num = c :: ds ∧ isspace c = false) ∧ ∀ x ∈ num, x ≠ 0 := by
  cases num with
  | nil => simp [is_decimal] at h
  | cons c ds =>
    by_cases hc : c = 45
    · subst hc
      simp only [is_decimal, if_true, Bool.and_eq_true, List.all_eq_true] at h
      refine ⟨⟨45, ds, rfl, by decide⟩, ?_⟩
      intro x hx
      rcases List.mem_cons.mp hx with rfl | hx
      · decide
      · exact isdigit_ne_nul x (h.2 x hx)
    · simp only [is_decimal, hc, if_false, Bool.and_eq_true, List.all_eq_true] at h
      refine ⟨⟨c, ds, rfl, isdigit_not_space c h.1⟩, ?_⟩
      intro x hx
      rcases List.mem_cons.mp hx with rfl | hx
      · exact isdigit_ne_nul x h.1
      · exact isdigit_ne_nul x (h.2 x hx)

/-- Flags text starts with a lower-case letter and holds lower-case letters and spaces
only. -/
theorem is_flags_shape :
    ∀ (n : Nat) (flags : CString), flags.length ≤ n → is_flags flags = true →
      (∃ c rest, flags = c :: rest ∧ islower c = true) ∧ ∀ x ∈ flags, in_flags x = true := by
  intro n
  induction n with
  | zero =>
    intro flags hlen h
    cases flags with
    | nil => simp [is_flags] at h
    | cons c rest => simp at hlen
  | succ n ih =>
    intro flags hlen h
    match flags, h, hlen with
    | [a, b], h, _ =>
      simp only [is_flags, Bool.and_eq_true] at h
      refine ⟨⟨a, [b], rfl, h.1⟩, ?_⟩
      intro x hx
      simp only [List.mem_cons, List.mem_singleton, List.not_mem_nil, or_false] at hx
      rcases hx with rfl | rfl
      · exact (islower_facts _ h.1).1
      · exact (islower_facts _ h.2).1
    | a :: b :: c :: rest, h, hlen =>
      simp only [is_flags, Bool.and_eq_true, decide_eq_true_eq] at h
      obtain ⟨⟨⟨ha, hb⟩, hc⟩, hrest⟩ := h
      have := ih rest (by simp at hlen; omega) hrest
      refine ⟨⟨a, b :: c :: rest, rfl, ha⟩, ?_⟩
      intro x hx
      simp only [List.mem_cons] at hx
      rcases hx with rfl | rfl | rfl | hx
      · exact (islower_facts _ ha).1
      · exact (islower_facts _ hb).1
      · subst hc; decide
      · exact this.2 x hx

theorem skip_space_blank (c : CChar) (rest : CString) (hsp : isspace c = false) :
    skip_space (32 :: c :: rest) = c :: rest := by
  have h32 : isspace 32 = true := by decide
  simp only [skip_space, List.dropWhile_cons, h32, hsp, if_true]
  simp

theorem int_line_eq (name num : CString) :
    int_line name num = name ++ 58 :: 32 :: (num ++ [10]) := by
  simp [int_line, cstr]

theorem flags_line_eq (flags : CString) :
    flags_line flags = cstr "VmFlags" ++ 58 :: 32 :: (flags ++ [10]) := by
  simp [flags_line, cstr]

theorem c_str_int_line (name num : CString) (hname : ∀ x ∈ name, in_key x = true)
    (hnum : is_decimal num = true) : c_str (int_line name num) = int_line name num := by
  apply c_str_of_no_nul
  intro c hc
  rw [int_line_eq] at hc
  simp only [List.mem_append, List.mem_cons, List.mem_singleton, List.not_mem_nil,
    or_false] at hc
  rcases hc with h | rfl | rfl | h | rfl
  · exact in_key_ne_nul c (hname c h)
  · decide
  · decide
  · exact (is_decimal_shape num hnum).2 c h
  · decide

theorem c_str_flags_line (flags : CString) (hflags : ∀ x ∈ flags, in_flags x = true) :
    c_str (flags_line flags) = flags_line flags := by
  apply c_str_of_no_nul
  intro c hc
  rw [flags_line_eq] at hc
  simp only [List.mem_append, List.mem_cons, List.mem_singleton, List.not_mem_nil,
    or_false] at hc
  rcases hc with h | rfl | rfl | h | rfl
  · revert c; decide
  · decide
  · decide
  · exact in_flags_ne_nul c (hflags c h)
  · decide

/-- The integer format on a line `<name>: <num>`: both conversions succeed. -/
theorem sscanf_int_int_line (name num key : CString) (val : Int)
    (hne : name ≠ []) (hlen : name.length ≤ 20) (hname : ∀ x ∈ name, in_key x = true)
    (hnum : is_decimal num = true)
    (hlo : -(2 ^ 31) ≤ decimal_value num) (hhi : decimal_value num < 2 ^ 31) :
    sscanf_int (int_line name num) key val = (2, name, decimal_value num) := by
  rw [int_line_eq]
  obtain ⟨⟨c, ds, hcd, hsp⟩, _⟩ := is_decimal_shape num hnum
  have h1 := scan_set_append in_key 20 name 58 (32 :: (num ++ [10])) hname (by decide) hne hlen
  have h2 : skip_space (32 :: (num ++ [10])) = num ++ [10] := by
    subst hcd
    exact skip_space_blank c _ hsp
  obtain ⟨r, h3⟩ := scan_int_decimal num [] hnum hlo hhi
  simp only [sscanf_int, h1, scan_char, if_true, h2, h3]

/-- The integer format on a line `VmFlags: <flags>`: the key is read, the number is not. -/
theorem sscanf_int_flags_line (flags key : CString) (val : Int)
    (hflags : is_flags flags = true) :
    sscanf_int (flags_line flags) key val = (1, cstr "VmFlags", val) := by
  rw [flags_line_eq]
  obtain ⟨⟨c, rest, hcr, hlow⟩, _⟩ := is_flags_shape flags.length flags (le_refl _) hflags
  obtain ⟨_, hsp, hdig, h45, h43⟩ := islower_facts c hlow
  have h1 := scan_set_append in_key 20 (cstr "VmFlags") 58 (32 :: (flags ++ [10]))
    (by decide) (by decide) (by decide) (by decide)
  have h2 : skip_space (32 :: (flags ++ [10])) = flags ++ [10] := by
    subst hcr
    exact skip_space_blank c _ hsp
  have h3 : scan_int (flags ++ [10]) = none := by
    subst hcr
    unfold scan_int
    simp only [List.cons_append]
    rw [skip_space_head _ _ hsp]
    simp [h45, h43, List.takeWhile_cons, hdig]
  simp only [sscanf_int, h1, scan_char, if_true, h2, h3]

/-- The text format on a line `VmFlags: <flags>`: the key and at most 32 chars of the
flags text are read. -/
theorem sscanf_text_flags_line (flags key sval : CString) (hflags : is_flags flags = true) :
    sscanf_text (flags_line flags) key sval = (2, cstr "VmFlags", flags.take 32) := by
  rw [flags_line_eq]
  obtain ⟨⟨c, rest, hcr, hlow⟩, hall⟩ := is_flags_shape flags.length flags (le_refl _) hflags
  obtain ⟨_, hsp, _, _, _⟩ := islower_facts c hlow
  have h1 := scan_set_append in_key 20 (cstr "VmFlags") 58 (32 :: (flags ++ [10]))
    (by decide) (by decide) (by decide) (by decide)
  have h2 : skip_space (32 :: (flags ++ [10])) = flags ++ [10] := by
    subst hcr
    exact skip_space_blank c _ hsp
  obtain ⟨r, h3⟩ := scan_set_append_take in_flags 32 flags 10 [] hall (by decide)
    (by subst hcr; simp) (by decide)
  simp only [sscanf_text, h1, scan_char, if_true, h2, h3]

/-! ## Steps of the line loop on the preloaded table -/

theorem int32_of_uint32_small (v : Nat) (h : v ≤ SMAP_VM_FLAGS) :
    int32_of_uint32 v = Int.ofNat v := by
  unfold int32_of_uint32
  have : v < 2 ^ 31 := by
    simp only [SMAP_VM_FLAGS] at h
    omega
  rw [if_pos this]

/-- On the preloaded table the store of a field line is always within `values`: it
writes the slot `hash_lookup` returned, or nothing when that is 0. -/
theorem store_field_smap (values : List Datum) (key : CString) (datum : Datum)
    (hlen : values.length = SMAP_FIELD_COUNT) :
    ∃ v, hash_lookup smap_table key = some v ∧
      (v = 0 ∨ (SMAP_SIZE ≤ v ∧ v ≤ SMAP_VM_FLAGS)) ∧
      store_field smap_table values key datum
        = some (if v = 0 then values else values.set v datum) := by
  obtain ⟨v, hv, hrange⟩ := smap_table_lookup_range key
  refine ⟨v, hv, hrange, ?_⟩
  have hle : v ≤ SMAP_VM_FLAGS := by
    rcases hrange with h | h
    · subst h; decide
    · exact h.2
  unfold store_field
  rw [hv]
  simp only [int32_of_uint32_small v hle]
  by_cases h0 : v = 0
  · subst h0
    simp
  · have hpos : Int.ofNat v > 0 := by
      have : 0 < v := Nat.pos_of_ne_zero h0
      exact Int.ofNat_pos.mpr this
    have ht : (Int.ofNat v).toNat = v := rfl
    have hin : (Int.ofNat v).toNat < values.length := by
      rw [hlen, ht]
      simp only [SMAP_FIELD_COUNT]
      simp only [SMAP_VM_FLAGS] at hle
      omega
    rw [ht] at hin
    simp only [hpos, hin, if_true, h0, if_false, ht]

theorem store_field_length (values values2 : List Datum) (key : CString) (datum : Datum)
    (hlen : values.length = SMAP_FIELD_COUNT)
    (h : store_field smap_table values key datum = some values2) :
    values2.length = SMAP_FIELD_COUNT := by
  obtain ⟨v, _, _, hs⟩ := store_field_smap values key datum hlen
  rw [hs] at h
  injection h with h
  subst h
  split <;> simp [hlen]

/-- The store of a line whose key is a registered name writes that name's slot. -/
theorem store_field_registered (values : List Datum) (p : CString × Nat) (datum : Datum)
    (hp : p ∈ smap_mappings) (hlen : values.length = SMAP_FIELD_COUNT) :
    store_field smap_table values p.1 datum = some (values.set p.2 datum) := by
  obtain ⟨v, hv, _, hs⟩ := store_field_smap values p.1 datum hlen
  rw [smap_table_lookup p hp] at hv
  injection hv with hv
  subst hv
  have h0 : p.2 ≠ 0 := by
    have := (smap_mappings_names p hp).2.2.2.1
    simp only [SMAP_SIZE] at this
    omega
  rw [hs]
  simp [h0]

theorem sscanf_header_nil : (sscanf_header []).matched = -1 := by decide

/-- A line the header format matches at least one conversion of opens a region. -/
theorem header_step (map : Table) (st : smap_state) (hdr : List CChar)
    (hreg : st.in_region = false) (hm : 0 < (sscanf_header (c_str hdr)).matched) :
    ∃ st2, get_smaps_line map st hdr = some (st2, true) ∧ st2.in_region = true ∧
      st2.rows = st.rows ∧ st2.values.length = st.values.length := by
  have hne : ¬ (c_str hdr).length < 1 := by
    intro h
    have : c_str hdr = [] := List.eq_nil_of_length_eq_zero (by omega)
    rw [this, sscanf_header_nil] at hm
    omega
  have hm0 : (sscanf_header (c_str hdr)).matched ≠ 0 := by omega
  unfold get_smaps_line
  simp only [hne, if_false, hreg, Bool.not_false, if_true, hm0]
  exact ⟨_, rfl, rfl, rfl, by simp⟩

/-- A field line `<name>: <num>` of a registered integer field, met inside a region,
stores the number into the slot of the name and nothing else changes. -/
theorem int_line_step (st : smap_state) (p : CString × Nat) (num : CString)
    (hreg : st.in_region = true) (hlen : st.values.length = SMAP_FIELD_COUNT)
    (hp : p ∈ smap_mappings) (hslot : p.2 ≠ SMAP_VM_FLAGS) (hnum : is_decimal num = true)
    (hlo : -(2 ^ 31) ≤ decimal_value num) (hhi : decimal_value num < 2 ^ 31) :
    get_smaps_line smap_table st (int_line p.1 num)
      = some ({ st with values := st.values.set p.2 (Datum.int32 (decimal_value num)) },
          true) := by
  obtain ⟨hne, hl20, hkey, _, _, hvm⟩ := smap_mappings_names p hp
  have hline := c_str_int_line p.1 num hkey hnum
  have hpos : ¬ (int_line p.1 num).length < 1 := by
    rw [int_line_eq]
    simp
  have hscan := sscanf_int_int_line p.1 num [] 0 hne hl20 hkey hnum hlo hhi
  have hstore := store_field_registered st.values p (Datum.int32 (decimal_value num)) hp hlen
  unfold get_smaps_line
  simp only [hline, hpos, if_false, hreg, Bool.not_true, hscan, if_true, hstore,
    Option.map_some', hvm hslot, Bool.false_eq_true]

/-- The line `VmFlags: <flags>`, met inside a region, stores at most 32 chars of the flags
text into the `VmFlags` slot, hands the row over and closes the region. -/
theorem flags_line_step (st : smap_state) (flags : CString)
    (hreg : st.in_region = true) (hlen : st.values.length = SMAP_FIELD_COUNT)
    (hflags : is_flags flags = true) :
    get_smaps_line smap_table st (flags_line flags)
      = some ({ values := st.values.set SMAP_VM_FLAGS (Datum.text (flags.take 32)),
                in_region := false,
                rows := st.rows ++ [st.values.set SMAP_VM_FLAGS (Datum.text (flags.take 32))] },
          true) := by
  obtain ⟨_, hall⟩ := is_flags_shape flags.length flags (le_refl _) hflags
  have hline := c_str_flags_line flags hall
  have hpos : ¬ (flags_line flags).length < 1 := by
    rw [flags_line_eq]
    simp
  have h1 := sscanf_int_flags_line flags [] 0 hflags
  have h2 := sscanf_text_flags_line flags (cstr "VmFlags") [] hflags
  have hstore := store_field_registered st.values (cstr "VmFlags", SMAP_VM_FLAGS)
    (Datum.text (flags.take 32)) (by decide) hlen
  have h12 : ¬ ((1 : Int) = 2) := by decide
  unfold get_smaps_line
  simp only [hline, hpos, if_false, hreg, Bool.not_true, h1, h12, h2, if_true, hstore,
    Option.map_some', Bool.false_eq_true]

/-- The loop over two runs of buffers, when the first run is read to its end. -/
theorem get_smaps_lines_append (map : Table) (a b : List (List CChar)) (st st2 : smap_state)
    (h : get_smaps_lines map a st = some (st2, true)) :
    get_smaps_lines map (a ++ b) st = get_smaps_lines map b st2 := by
  induction a generalizing st with
  | nil =>
    simp only [get_smaps_lines] at h
    injection h with h
    injection h with h1 _
    subst h1
    rfl
  | cons buf a ih =>
    simp only [List.cons_append, get_smaps_lines] at h ⊢
    cases hline : get_smaps_line map st buf with
    | none => rw [hline] at h; simp at h
    | some r =>
      obtain ⟨st3, flag⟩ := r
      rw [hline] at h
      cases flag with
      | true =>
        simp only at h ⊢
        exact ih st3 h
      | false => simp at h

/-- The integer field lines of a region, in order. -/
theorem int_lines_run (fields : List ((CString × Nat) × CString)) (st : smap_state)
    (hreg : st.in_region = true) (hlen : st.values.length = SMAP_FIELD_COUNT)
    (hfields : ∀ f ∈ fields, f.1 ∈ smap_mappings ∧ f.1.2 ≠ SMAP_VM_FLAGS ∧
      is_decimal f.2 = true ∧ -(2 ^ 31) ≤ decimal_value f.2 ∧ decimal_value f.2 < 2 ^ 31) :
    get_smaps_lines smap_table (fields.map fun f => int_line f.1.1 f.2) st
      = some ({ st with values := store_ints st.values fields }, true) := by
  induction fields generalizing st with
  | nil => rfl
  | cons f fields ih =>
    obtain ⟨hp, hslot, hnum, hlo, hhi⟩ := hfields f (by simp)
    have hstep := int_line_step st f.1 f.2 hreg hlen hp hslot hnum hlo hhi
    simp only [List.map_cons, get_smaps_lines, hstep]
    rw [ih { st with values := st.values.set f.1.2 (Datum.int32 (decimal_value f.2)) } hreg
      (by simp [hlen]) (fun g hg => hfields g (by simp [hg]))]
    rfl

theorem store_ints_length (values : List Datum) (fields : List ((CString × Nat) × CString)) :
    (store_ints values fields).length = values.length := by
  induction fields generalizing values with
  | nil => rfl
  | cons f fields ih =>
    simp only [store_ints, List.foldl_cons]
    exact (ih _).trans (by simp)

theorem store_ints_other (values : List Datum) (fields : List ((CString × Nat) × CString))
    (i : Nat) (h : ∀ f ∈ fields, f.1.2 ≠ i) :
    (store_ints values fields)[i]? = values[i]? := by
  induction fields generalizing values with
  | nil => rfl
  | cons f fields ih =>
    simp only [store_ints, List.foldl_cons]
    have := ih (values.set f.1.2 (Datum.int32 (decimal_value f.2)))
      (fun g hg => h g (by simp [hg]))
    simp only [store_ints] at this
    rw [this, List.getElem?_set_ne (h f (by simp))]

/-- A slot holds the number of the last field line that stored into it. -/
theorem store_ints_last (values : List Datum) (pre post : List ((CString × Nat) × CString))
    (f : (CString × Nat) × CString) (hlen : f.1.2 < values.length)
    (hpost : ∀ g ∈ post, g.1.2 ≠ f.1.2) :
    (store_ints values (pre ++ f :: post))[f.1.2]? = some (Datum.int32 (decimal_value f.2)) := by
  have hsplit : store_ints values (pre ++ f :: post)
      = store_ints ((store_ints values pre).set f.1.2 (Datum.int32 (decimal_value f.2))) post := by
    simp [store_ints, List.foldl_append]
  rw [hsplit, store_ints_other _ post f.1.2 hpost]
  rw [List.getElem?_set_self]
  · rw [store_ints_length]; exact hlen

/-! ## The block decoder: claims C7 to C10 -/

theorem smap_init_length (pid : Int) : (smap_init pid).values.length = SMAP_FIELD_COUNT := by
  simp [smap_init]

/-- C7, as amended: for every file made of one line the header format matches (a full
match assigns 7 or 8 objects), then lines `<name>: <decimal>` for registered integer field
names with numbers in the range of `int32_t`, then a line `VmFlags: <flags>` of
lower-case two-letter flags separated by single spaces, the loop reads the file to its end
and hands over exactly one row; in it the slot of each name holds the number of the last
line for that name, the `VmFlags` slot holds the first 32 chars of the flags text (all of
it when it has no more), and `in_region` is false again. -/
theorem region_decoded (pid : Int) (hdr : List CChar)
    (fields : List ((CString × Nat) × CString)) (flags : CString)
    (hhdr : 0 < (sscanf_header (c_str hdr)).matched)
    (hfields : ∀ f ∈ fields, f.1 ∈ smap_mappings ∧ f.1.2 ≠ SMAP_VM_FLAGS ∧
      is_decimal f.2 = true ∧ -(2 ^ 31) ≤ decimal_value f.2 ∧ decimal_value f.2 < 2 ^ 31)
    (hflags : is_flags flags = true) :
    ∃ st row,
      get_smaps_lines smap_table
          (hdr :: (fields.map fun f => int_line f.1.1 f.2) ++ [flags_line flags])
          (smap_init pid) = some (st, true) ∧
        st.in_region = false ∧ st.rows = [row] ∧
        row[SMAP_VM_FLAGS]? = some (Datum.text (flags.take 32)) ∧
        ∀ pre f post, fields = pre ++ f :: post → (∀ g ∈ post, g.1.1 ≠ f.1.1) →
          row[f.1.2]? = some (Datum.int32 (decimal_value f.2)) := by
  obtain ⟨st1, hstep1, hreg1, hrows1, hlen1⟩ :=
    header_step smap_table (smap_init pid) hdr rfl hhdr
  rw [smap_init_length] at hlen1
  have hrun := int_lines_run fields st1 hreg1 hlen1 hfields
  have hlen2 : (store_ints st1.values fields).length = SMAP_FIELD_COUNT := by
    rw [store_ints_length, hlen1]
  have hstep3 := flags_line_step { st1 with values := store_ints st1.values fields } flags
    hreg1 hlen2 hflags
  refine ⟨{ values := (store_ints st1.values fields).set SMAP_VM_FLAGS
              (Datum.text (flags.take 32)),
            in_region := false,
            rows := st1.rows ++ [(store_ints st1.values fields).set SMAP_VM_FLAGS
              (Datum.text (flags.take 32))] },
    (store_ints st1.values fields).set SMAP_VM_FLAGS (Datum.text (flags.take 32)),
    ?_, rfl, ?_, ?_, ?_⟩
  · show get_smaps_lines smap_table
      (hdr :: ((fields.map fun f => int_line f.1.1 f.2) ++ [flags_line flags])) _ = _
    simp only [get_smaps_lines, hstep1]
    rw [get_smaps_lines_append smap_table _ _ _ _ hrun]
    simp only [get_smaps_lines, hstep3]
  · simp only [hrows1]
    rfl
  · rw [List.getElem?_set_self]
    rw [hlen2]
    decide
  · intro pre f post hsplit hpost
    have hf := hfields f (by rw [hsplit]; simp)
    have hne : SMAP_VM_FLAGS ≠ f.1.2 := fun h => hf.2.1 h.symm
    rw [List.getElem?_set_ne hne, hsplit]
    apply store_ints_last
    · rw [hlen1]
      have := (smap_mappings_names f.1 hf.1).2.2.2.2.1
      simp only [SMAP_VM_FLAGS] at this
      simp only [SMAP_FIELD_COUNT]
      omega
    · intro g hg hslot
      have hgm := (hfields g (by rw [hsplit]; simp [hg])).1
      exact hpost g hg (smap_mappings_slot_inj g.1 hgm f.1 hf.1 hslot)

/-- Witness of C7 as amended, the scenario of the claim: header, `Rss: 120`,
`VmFlags: rd wr` for backend 7 give one row with 120 in the `Rss` slot and `rd wr` in the
`VmFlags` slot, and `in_region` is false afterwards. -/
theorem region_decoded_witness :
    (sscanf_header (c_str sample_header)).matched = 8 ∧
      int_line (cstr "Rss") (cstr "120") = cstr "Rss: 120\n" ∧
      flags_line (cstr "rd wr") = cstr "VmFlags: rd wr\n" ∧
      decimal_value (cstr "120") = 120 ∧ (cstr "rd wr").take 32 = cstr "rd wr" ∧
      (get_smaps_lines smap_table
          [sample_header, cstr "Rss: 120\n", cstr "VmFlags: rd wr\n"] (smap_init 7)).map
        (fun r => (r.1.in_region, r.1.rows.map fun row => (row[SMAP_RSS]?, row[SMAP_VM_FLAGS]?)))
        = some (false, [(some (Datum.int32 120), some (Datum.text (cstr "rd wr")))]) ∧
      ∃ st row,
        get_smaps_lines smap_table
            (sample_header ::
              ([((cstr "Rss", SMAP_RSS), cstr "120")].map fun f => int_line f.1.1 f.2)
              ++ [flags_line (cstr "rd wr")])
            (smap_init 7) = some (st, true) ∧
          st.in_region = false ∧ st.rows = [row] ∧
          row[SMAP_VM_FLAGS]? = some (Datum.text ((cstr "rd wr").take 32)) ∧
          ∀ pre f post, [((cstr "Rss", SMAP_RSS), cstr "120")] = pre ++ f :: post →
            (∀ g ∈ post, g.1.1 ≠ f.1.1) →
            row[f.1.2]? = some (Datum.int32 (decimal_value f.2)) :=
  ⟨by decide, by decide, by decide, by decide, by decide, by decide,
    region_decoded 7 sample_header [((cstr "Rss", SMAP_RSS), cstr "120")] (cstr "rd wr")
      (by decide) (by decide) (by decide)⟩

/-- C7 as stated fails. The flags text of twelve flags has 35 chars and the `VmFlags` slot
of the row holds its first 32 only; the number 4294967296 of the `Rss` line does not fit
the `int32_t` the format stores into, and the `Rss` slot holds 0. -/
theorem long_flags_text_cut :
    (sscanf_header (c_str sample_header)).matched = 8 ∧
      is_decimal (cstr "4294967296") = true ∧
      decimal_value (cstr "4294967296") = 4294967296 ∧
      is_flags (cstr "rd wr mr mw me ac sd ht nr dd hg mg") = true ∧
      (get_smaps_lines smap_table
          [sample_header, int_line (cstr "Rss") (cstr "4294967296"),
            flags_line (cstr "rd wr mr mw me ac sd ht nr dd hg mg")]
          (smap_init 7)).map
        (fun r => (r.1.in_region, r.1.rows.map fun row => (row[SMAP_RSS]?, row[SMAP_VM_FLAGS]?)))
        = some (false,
            [(some (Datum.int32 0), some (Datum.text (cstr "rd wr mr mw me ac sd ht nr dd hg")))]) := by
  decide

theorem sscanf_int_key (line key : CString) (val : Int) :
    (sscanf_int line key val).2.1
      = match scan_set in_key 20 line with
        | none => key
        | some (k, _) => k := by
  unfold sscanf_int
  cases scan_set in_key 20 line with
  | none => rfl
  | some r =>
    obtain ⟨k, s⟩ := r
    simp only
    cases scan_char 58 s with
    | none => rfl
    | some s2 =>
      simp only
      cases scan_int (skip_space s2) with
      | none => rfl
      | some r2 => rfl

theorem sscanf_text_key (line key sval : CString) :
    (sscanf_text line key sval).2.1
      = match scan_set in_key 20 line with
        | none => key
        | some (k, _) => k := by
  unfold sscanf_text
  cases scan_set in_key 20 line with
  | none => rfl
  | some r =>
    obtain ⟨k, s⟩ := r
    simp only
    cases scan_char 58 s with
    | none => rfl
    | some s2 =>
      simp only
      cases scan_set in_flags 32 (skip_space s2) with
      | none => rfl
      | some r2 => rfl

/-- Both field formats leave the key of the line in `key`. -/
theorem field_keys (buf : List CChar) :
    (sscanf_int (c_str buf) [] 0).2.1 = line_key buf ∧
      ∀ sval, (sscanf_text (c_str buf) (sscanf_int (c_str buf) [] 0).2.1 sval).2.1
        = line_key buf := by
  have h1 : (sscanf_int (c_str buf) [] 0).2.1 = line_key buf := by
    rw [sscanf_int_key]
    rfl
  refine ⟨h1, fun sval => ?_⟩
  rw [sscanf_text_key, h1]
  unfold line_key
  cases scan_set in_key 20 (c_str buf) with
  | none => rfl
  | some r => rfl

/-- Inside a region, a line whose key is not `VmFlags` hands over no row and leaves the
region open. -/
theorem region_line_step (st : smap_state) (buf : List CChar)
    (hreg : st.in_region = true) (hlen : st.values.length = SMAP_FIELD_COUNT)
    (hkey : line_key buf ≠ cstr "VmFlags") :
    ∃ st2 flag, get_smaps_line smap_table st buf = some (st2, flag) ∧ st2.rows = st.rows ∧
      st2.in_region = true ∧ st2.values.length = SMAP_FIELD_COUNT := by
  obtain ⟨hk1, hk2⟩ := field_keys buf
  unfold get_smaps_line
  by_cases hempty : (c_str buf).length < 1
  · simp only [hempty, if_true]
    exact ⟨st, false, rfl, rfl, hreg, hlen⟩
  · simp only [hempty, if_false, hreg, Bool.not_true, Bool.false_eq_true]
    by_cases h1 : (sscanf_int (c_str buf) [] 0).1 = 2
    · simp only [h1, if_true, hk1]
      obtain ⟨v, _, _, hs⟩ := store_field_smap st.values (line_key buf)
        (Datum.int32 (sscanf_int (c_str buf) [] 0).2.2) hlen
      have hl := store_field_length _ _ _ _ hlen hs
      simp only [hs, Option.map_some', hkey, if_false]
      exact ⟨_, true, rfl, rfl, rfl, hl⟩
    · simp only [h1, if_false]
      by_cases h2 : (sscanf_text (c_str buf) (sscanf_int (c_str buf) [] 0).2.1 []).1 = 2
      · simp only [h2, if_true, hk2]
        obtain ⟨v, _, _, hs⟩ := store_field_smap st.values (line_key buf)
          (Datum.text (sscanf_text (c_str buf) (sscanf_int (c_str buf) [] 0).2.1 []).2.2) hlen
        have hl := store_field_length _ _ _ _ hlen hs
        simp only [hs, Option.map_some', hkey, if_false]
        exact ⟨_, true, rfl, rfl, rfl, hl⟩
      · simp only [h2, if_false, hk2, hkey]
        exact ⟨_, true, rfl, rfl, rfl, hlen⟩

/-- Inside a region, lines none of which has the key `VmFlags` hand over no row. -/
theorem region_lines_rows (lines : List (List CChar)) (st : smap_state)
    (hreg : st.in_region = true) (hlen : st.values.length = SMAP_FIELD_COUNT)
    (hkeys : ∀ l ∈ lines, line_key l ≠ cstr "VmFlags") :
    ∃ st2 flag, get_smaps_lines smap_table lines st = some (st2, flag) ∧
      st2.rows = st.rows := by
  induction lines generalizing st with
  | nil => exact ⟨st, true, rfl, rfl⟩
  | cons buf lines ih =>
    obtain ⟨st2, flag, hstep, hrows, hreg2, hlen2⟩ :=
      region_line_step st buf hreg hlen (hkeys buf (by simp))
    simp only [get_smaps_lines, hstep]
    cases flag with
    | false => exact ⟨st2, false, rfl, hrows⟩
    | true =>
      obtain ⟨st3, flag3, hrun, hrows3⟩ := ih st2 hreg2 hlen2
        (fun l hl => hkeys l (by simp [hl]))
      exact ⟨st3, flag3, hrun, hrows3.trans hrows⟩

/-- One pass of the loop body keeps `values` at its `SMAP_FIELD_COUNT` slots. -/
theorem get_smaps_line_length (st st2 : smap_state) (buf : List CChar) (flag : Bool)
    (hlen : st.values.length = SMAP_FIELD_COUNT)
    (h : get_smaps_line smap_table st buf = some (st2, flag)) :
    st2.values.length = SMAP_FIELD_COUNT := by
  unfold get_smaps_line at h
  by_cases hempty : (c_str buf).length < 1
  · simp only [hempty, if_true, Option.some.injEq, Prod.mk.injEq] at h
    obtain ⟨rfl, _⟩ := h
    exact hlen
  · simp only [hempty, if_false] at h
    by_cases hreg : st.in_region = true
    · simp only [hreg, Bool.not_true, Bool.false_eq_true, if_false] at h
      by_cases h1 : (sscanf_int (c_str buf) [] 0).1 = 2
      · obtain ⟨v, _, _, hs⟩ := store_field_smap st.values (sscanf_int (c_str buf) [] 0).2.1
          (Datum.int32 (sscanf_int (c_str buf) [] 0).2.2) hlen
        simp only [h1, if_true, hs, Option.map_some'] at h
        split_ifs at h <;>
          (simp only [Option.some.injEq, Prod.mk.injEq] at h
           obtain ⟨rfl, _⟩ := h
           simp [hlen])
      · simp only [h1, if_false] at h
        by_cases h2 : (sscanf_text (c_str buf) (sscanf_int (c_str buf) [] 0).2.1 []).1 = 2
        · obtain ⟨v, _, _, hs⟩ := store_field_smap st.values
            (sscanf_text (c_str buf) (sscanf_int (c_str buf) [] 0).2.1 []).2.1
            (Datum.text (sscanf_text (c_str buf) (sscanf_int (c_str buf) [] 0).2.1 []).2.2) hlen
          simp only [h2, if_true, hs, Option.map_some'] at h
          split_ifs at h <;>
            (simp only [Option.some.injEq, Prod.mk.injEq] at h
             obtain ⟨rfl, _⟩ := h
             simp [hlen])
        · simp only [h2, if_false] at h
          split_ifs at h <;>
            (simp only [Option.some.injEq, Prod.mk.injEq] at h
             obtain ⟨rfl, _⟩ := h
             exact hlen)
    · have hreg2 : st.in_region = false := by simpa using hreg
      simp only [hreg2, Bool.not_false, if_true] at h
      split_ifs at h <;>
        (simp only [Option.some.injEq, Prod.mk.injEq] at h
         obtain ⟨rfl, _⟩ := h
         simp [hlen])

/-- The loop keeps `values` at its `SMAP_FIELD_COUNT` slots. -/
theorem get_smaps_lines_length (lines : List (List CChar)) (st st2 : smap_state) (flag : Bool)
    (hlen : st.values.length = SMAP_FIELD_COUNT)
    (h : get_smaps_lines smap_table lines st = some (st2, flag)) :
    st2.values.length = SMAP_FIELD_COUNT := by
  induction lines generalizing st with
  | nil =>
    simp only [get_smaps_lines, Option.some.injEq, Prod.mk.injEq] at h
    obtain ⟨rfl, _⟩ := h
    exact hlen
  | cons buf lines ih =>
    simp only [get_smaps_lines] at h
    cases hline : get_smaps_line smap_table st buf with
    | none => rw [hline] at h; simp at h
    | some r =>
      obtain ⟨st3, flag3⟩ := r
      have hl3 := get_smaps_line_length st st3 buf flag3 hlen hline
      rw [hline] at h
      cases flag3 with
      | true => exact ih st3 hl3 h
      | false =>
        simp only [Option.some.injEq, Prod.mk.injEq] at h
        obtain ⟨rfl, _⟩ := h
        exact hl3

/-- Buffers without a `VmFlags` key after an accepted header add no row: when the loop
has read the buffers `pre` to their end and is outside a region, a buffer the header
format matches and buffers none of which has the key `VmFlags` hand over no row. -/
theorem region_rows_kept (pid : Int) (pre : List (List CChar)) (hdr : List CChar)
    (region : List (List CChar)) (st : smap_state)
    (hpre : get_smaps_lines smap_table pre (smap_init pid) = some (st, true))
    (hawait : st.in_region = false)
    (hhdr : 0 < (sscanf_header (c_str hdr)).matched)
    (hregion : ∀ l ∈ region, line_key l ≠ cstr "VmFlags") :
    ∃ st2 flag, get_smaps_lines smap_table (pre ++ hdr :: region) (smap_init pid)
      = some (st2, flag) ∧ st2.rows = st.rows := by
  have hlen := get_smaps_lines_length pre _ st true (smap_init_length pid) hpre
  obtain ⟨st1, hstep, hreg1, hrows1, hlen1⟩ := header_step smap_table st hdr hawait hhdr
  obtain ⟨st2, flag, hrun, hrows2⟩ := region_lines_rows region st1 hreg1
    (hlen1.trans hlen) hregion
  refine ⟨st2, flag, ?_, hrows2.trans hrows1⟩
  rw [get_smaps_lines_append smap_table pre _ _ _ hpre]
  simp only [get_smaps_lines, hstep]
  exact hrun

/-- A line of at most `n` chars is what `fgets` stores when it may store `n` chars. -/
theorem fgets_chars_whole (n : Nat) (l rest : List CChar)
    (h : whole_line_within n l = true) : fgets_chars n (l ++ rest) = (l, rest) := by
  induction l generalizing n with
  | nil => simp [whole_line_within] at h
  | cons c l ih =>
    cases n with
    | zero => simp [whole_line_within] at h
    | succ n =>
      by_cases hc : c = 10
      · simp only [whole_line_within, hc, if_true, List.isEmpty_eq_true] at h
        subst h
        simp [fgets_chars, hc]
      · simp only [whole_line_within, hc, if_false] at h
        have hrec := ih n h
        show fgets_chars (n + 1) (c :: (l ++ rest)) = _
        simp only [fgets_chars, hc, if_false, hrec]

/-- One `fgets` call reads a whole line and leaves what follows it. -/
theorem fgets_whole (l rest : List CChar) (h : whole_line l = true) :
    fgets 512 (l ++ rest) = some (l, rest) := by
  have hne : l ++ rest ≠ [] := by
    cases l with
    | nil => simp [whole_line, whole_line_within] at h
    | cons c l => simp
  unfold fgets
  rw [if_neg hne]
  exact congrArg some (fgets_chars_whole 511 l rest h)

/-- On a file made of whole lines the loop over the file is the loop over its lines. -/
theorem get_smaps_file_lines (map : Table) (lines : List (List CChar)) (fuel : Nat)
    (st : smap_state) (hwhole : ∀ l ∈ lines, whole_line l = true)
    (hfuel : lines.length < fuel) :
    get_smaps_file map fuel lines.flatten st = get_smaps_lines map lines st := by
  induction lines generalizing fuel st with
  | nil =>
    obtain ⟨f, rfl⟩ : ∃ f, fuel = f + 1 := ⟨fuel - 1, by omega⟩
    simp [get_smaps_file, get_smaps_lines, fgets]
  | cons l lines ih =>
    obtain ⟨f, rfl⟩ : ∃ f, fuel = f + 1 := ⟨fuel - 1, by simp at hfuel; omega⟩
    have hread := fgets_whole l lines.flatten (hwhole l (by simp))
    simp only [List.flatten_cons, get_smaps_file, hread, get_smaps_lines]
    cases hline : get_smaps_line map st l with
    | none => rfl
    | some r =>
      obtain ⟨st2, flag⟩ := r
      cases flag with
      | false => rfl
      | true =>
        simp only
        exact ih f st2 (fun b hb => hwhole b (by simp [hb])) (by simp at hfuel; omega)

/-- C8, as amended: for every file whose lines are each read whole by one `fgets` call (at
most 511 chars with the closing newline), once the loop has read the lines `pre` to their
end and is outside a region, a region that follows (a line the header format matches,
then lines none of which has the key `VmFlags`) up to the end of the file hands over no
row: the rows of the file are those handed over for `pre`, however many field lines of
the region were stored. In particular a file that is one such header line gives no
row. -/
theorem region_without_vmflags (pid : Int) (pre : List (List CChar)) (hdr : List CChar)
    (region : List (List CChar)) (st : smap_state) (fuel : Nat)
    (hwhole : ∀ l ∈ pre ++ hdr :: region, whole_line l = true)
    (hfuel : (pre ++ hdr :: region).length < fuel)
    (hpre : get_smaps_file smap_table fuel pre.flatten (smap_init pid) = some (st, true))
    (hawait : st.in_region = false)
    (hhdr : 0 < (sscanf_header (c_str hdr)).matched)
    (hregion : ∀ l ∈ region, line_key l ≠ cstr "VmFlags") :
    (∃ st2 flag,
        get_smaps_file smap_table fuel (pre ++ hdr :: region).flatten (smap_init pid)
          = some (st2, flag) ∧ st2.rows = st.rows) ∧
      ∃ st3, get_smaps_file smap_table fuel hdr (smap_init pid) = some (st3, true) ∧
        st3.rows = [] := by
  have hlenle : pre.length < fuel := by
    simp only [List.length_append, List.length_cons] at hfuel
    omega
  rw [get_smaps_file_lines smap_table pre fuel _
    (fun l hl => hwhole l (by simp [hl])) hlenle] at hpre
  constructor
  · rw [get_smaps_file_lines smap_table _ fuel _ hwhole hfuel]
    exact region_rows_kept pid pre hdr region st hpre hawait hhdr hregion
  · have hone := get_smaps_file_lines smap_table [hdr] fuel (smap_init pid)
      (fun l hl => hwhole l (by
        simp only [List.mem_singleton] at hl
        simp [hl]))
      (by
        simp only [List.length_append, List.length_cons] at hfuel
        simp only [List.length_singleton]
        omega)
    simp only [List.flatten_cons, List.flatten_nil, List.append_nil] at hone
    rw [hone]
    obtain ⟨st1, hstep, _, hrows1, _⟩ := header_step smap_table (smap_init pid) hdr rfl hhdr
    refine ⟨st1, ?_, hrows1⟩
    simp only [get_smaps_lines, hstep]

/-- Witness of C8 as amended: the file is the whole region `sample_region`, then a second
header and three stored field lines and no `VmFlags` line; the second region adds no row
to the one of the first, and the file of the second header alone gives no row. -/
theorem region_without_vmflags_witness :
    (∀ l ∈ sample_region ++ sample_header_anon ::
        [cstr "Size: 4\n", cstr "Rss: 8\n", cstr "Pss: 2\n"], whole_line l = true) ∧
      get_smaps_file smap_table 8 sample_region.flatten (smap_init 7)
        = some (sample_state, true) ∧
      sample_state.in_region = false ∧ sample_state.rows.length = 1 ∧
      0 < (sscanf_header (c_str sample_header_anon)).matched ∧
      (∀ l ∈ [cstr "Size: 4\n", cstr "Rss: 8\n", cstr "Pss: 2\n"],
        line_key l ≠ cstr "VmFlags") ∧
      ((∃ st2 flag,
          get_smaps_file smap_table 8
              (sample_region ++ sample_header_anon ::
                [cstr "Size: 4\n", cstr "Rss: 8\n", cstr "Pss: 2\n"]).flatten
              (smap_init 7) = some (st2, flag) ∧
            st2.rows = sample_state.rows) ∧
        ∃ st3, get_smaps_file smap_table 8 sample_header_anon (smap_init 7)
            = some (st3, true) ∧
          st3.rows = []) :=
  ⟨by decide, by decide, by decide, by decide, by decide, by decide,
    region_without_vmflags 7 sample_region sample_header_anon
      [cstr "Size: 4\n", cstr "Rss: 8\n", cstr "Pss: 2\n"] sample_state 8
      (by decide) (by decide) (by decide) (by decide) (by decide) (by decide)⟩

/-- C8 as stated fails. The file is the single header line `long_header` of 526 chars,
which the header format matches in full and whose key is not `VmFlags`. The first `fgets`
call stores its first 511 chars, which open a region; the second stores the rest,
`VmFlags/lib.so`, a buffer of key `VmFlags`, and a row is handed over. -/
theorem long_header_line_emits :
    long_header.length = 526 ∧ whole_line_within 526 long_header = true ∧
      (sscanf_header (c_str long_header)).matched = 8 ∧
      line_key long_header ≠ cstr "VmFlags" ∧
      (fgets 512 long_header).map (fun r => (r.1.length, r.2))
        = some (511, cstr "VmFlags/lib.so\n") ∧
      line_key (cstr "VmFlags/lib.so\n") = cstr "VmFlags" ∧
      (get_smaps_file smap_table 3 long_header (smap_init 7)).map
        (fun r => (r.2, r.1.in_region, r.1.rows.length)) = some (true, false, 1) := by
  decide

/-- C9 fails on the code: the second region of this file has no `Rss` line, yet the `Rss`
slot of its row holds 120, the number stored while the first region was read. `values`
is zeroed once per backend, before the line loop, and not between regions. -/
theorem stale_value_in_second_row :
    (∀ l ∈ [sample_header_anon, cstr "VmFlags: ex\n"], line_key l ≠ cstr "Rss") ∧
      (get_smaps_lines smap_table
          (sample_region ++ [sample_header_anon, cstr "VmFlags: ex\n"]) (smap_init 7)).map
        (fun r => r.1.rows.map fun row => (row[SMAP_RSS]?, row[SMAP_VM_FLAGS]?))
        = some [(some (Datum.int32 120), some (Datum.text (cstr "rd wr"))),
                (some (Datum.int32 120), some (Datum.text (cstr "ex")))] := by
  decide

/-- C10 fails on the code: inside a region the line `a: 5`, whose key is none of the 24
names, stores 5 into the `Pss_Dirty` slot, and the row handed over at the `VmFlags` line
carries it. `hash_lookup` returns 14 for `a` instead of 0. -/
theorem unknown_key_changes_slot :
    cstr "a" ∉ smap_mappings.map Prod.fst ∧ line_key (cstr "a: 5\n") = cstr "a" ∧
      hash_lookup smap_table (cstr "a") = some SMAP_PSS_DIRTY ∧
      (get_smaps_lines smap_table [sample_header, cstr "VmFlags: rd wr\n"] (smap_init 7)).map
        (fun r => r.1.rows.map fun row => row[SMAP_PSS_DIRTY]?)
        = some [some (Datum.int32 0)] ∧
      (get_smaps_lines smap_table [sample_header, cstr "a: 5\n", cstr "VmFlags: rd wr\n"]
          (smap_init 7)).map
        (fun r => r.1.rows.map fun row => row[SMAP_PSS_DIRTY]?)
        = some [some (Datum.int32 5)] := by
  decide

/-! ## The block decoder: claims C11 and C12 -/

/-- The header format converts nothing exactly when the line does not begin with a char
of `[0-9a-f]`. -/
theorem sscanf_header_none (c : CChar) (s : CString) :
    (sscanf_header (c :: s)).matched = 0 ↔ in_hex c = false := by
  constructor
  · intro h
    by_contra hc
    have hc2 : in_hex c = true := by simpa using hc
    have hrun : take_run in_hex 32 (c :: s) = c :: take_run in_hex 31 s := by
      simp [take_run, hc2]
    have hscan : ∃ r, scan_set in_hex 32 (c :: s) = some r := by
      unfold scan_set
      rw [hrun]
      simp
    obtain ⟨r, hr⟩ := hscan
    have hpos : 1 ≤ (sscanf_header (c :: s)).matched := by
      unfold sscanf_header
      rw [hr]
      simp only
      repeat' split
      all_goals simp
    omega
  · intro hc
    unfold sscanf_header
    rw [scan_set_head_fail in_hex 32 c s hc]
    simp

/-- Outside a region, a non-empty line of which the header format converts nothing makes
the loop leave by `break`; the state stays as it was. -/
theorem header_reject_step (map : Table) (st : smap_state) (buf : List CChar)
    (hreg : st.in_region = false) (hne : c_str buf ≠ [])
    (hm : (sscanf_header (c_str buf)).matched = 0) :
    get_smaps_line map st buf = some (st, false) := by
  have hlen : ¬ (c_str buf).length < 1 := by
    intro h
    exact hne (List.eq_nil_of_length_eq_zero (by omega))
  unfold get_smaps_line
  simp only [hlen, if_false, hreg, Bool.not_false, if_true, hm]

/-- C11, as amended: when the loop has read the buffers `pre` to their end and is outside
a region, a non-empty line of which the header format converts nothing (a line that does
not begin with a char of `[0-9a-f]`) ends the decoding of the file: the loop leaves by
`break` in the state it had, so no region is opened, whatever follows the line is not
read, no further row is handed over and the rows handed over before are kept. -/
theorem unmatched_header_stops (pid : Int) (pre : List (List CChar)) (buf : List CChar)
    (rest : List (List CChar)) (st : smap_state)
    (hpre : get_smaps_lines smap_table pre (smap_init pid) = some (st, true))
    (hawait : st.in_region = false) (hne : c_str buf ≠ [])
    (hm : (sscanf_header (c_str buf)).matched = 0) :
    get_smaps_lines smap_table (pre ++ buf :: rest) (smap_init pid) = some (st, false) ∧
      ∃ c s, c_str buf = c :: s ∧ in_hex c = false := by
  constructor
  · rw [get_smaps_lines_append smap_table pre _ _ _ hpre]
    simp only [get_smaps_lines, header_reject_step smap_table st buf hawait hne hm]
  · cases hb : c_str buf with
    | nil => exact absurd hb hne
    | cons c s =>
      rw [hb] at hm
      exact ⟨c, s, rfl, (sscanf_header_none c s).mp hm⟩

/-- Witness of C11 as amended: after the whole region `sample_region` the line `Size: 4`
stops the loop; the header and the `VmFlags` line after it are not read and the one row
of the first region is kept. -/
theorem unmatched_header_stops_witness :
    get_smaps_lines smap_table sample_region (smap_init 7) = some (sample_state, true) ∧
      sample_state.in_region = false ∧ c_str (cstr "Size: 4\n") ≠ [] ∧
      (sscanf_header (c_str (cstr "Size: 4\n"))).matched = 0 ∧
      sample_state.rows.length = 1 ∧
      (get_smaps_lines smap_table
          (sample_region ++ cstr "Size: 4\n" :: [sample_header_anon, cstr "VmFlags: rd\n"])
          (smap_init 7) = some (sample_state, false) ∧
        ∃ c s, c_str (cstr "Size: 4\n") = c :: s ∧ in_hex c = false) :=
  ⟨by decide, by decide, by decide, by decide, by decide,
    unmatched_header_stops 7 sample_region (cstr "Size: 4\n")
      [sample_header_anon, cstr "VmFlags: rd\n"] sample_state
      (by decide) (by decide) (by decide) (by decide)⟩

/-- C11 as stated fails. The line `abc` does not match the header grammar (one conversion
out of the seven a header without path needs), yet in the first line of a file it opens a
region: the loop goes on, reads the next line and hands over a row, with `abc` as start
address and an empty end address. -/
theorem partial_header_opens_region :
    (sscanf_header (c_str (cstr "abc\n"))).matched = 1 ∧
      (get_smaps_lines smap_table [cstr "abc\n"] (smap_init 7)).map
        (fun r => (r.2, r.1.in_region)) = some (true, true) ∧
      (get_smaps_lines smap_table [cstr "abc\n", cstr "VmFlags: rd\n"] (smap_init 7)).map
        (fun r => (r.2, r.1.rows.map fun row =>
          (row[SMAP_START_ADDRESS]?, row[SMAP_END_ADDRESS]?, row[SMAP_VM_FLAGS]?)))
        = some (true, [(some (Datum.text (cstr "abc")), some (Datum.text []),
            some (Datum.text (cstr "rd")))]) := by
  decide

/-- One pass of the loop body either hands over no row, or it handled a line of key
`VmFlags` inside a region and hands over `values` as they stand after the store of that
line. -/
theorem emit_step (st st2 : smap_state) (buf : List CChar) (flag : Bool)
    (hlen : st.values.length = SMAP_FIELD_COUNT)
    (h : get_smaps_line smap_table st buf = some (st2, flag)) :
    st2.rows = st.rows ∨
      (st.in_region = true ∧ line_key buf = cstr "VmFlags" ∧ flag = true ∧
        st2.rows = st.rows ++ [st2.values] ∧
        st2.values[SMAP_VM_FLAGS]? = vmflags_slot_after st.values[SMAP_VM_FLAGS]? buf) := by
  obtain ⟨hk1, hk2⟩ := field_keys buf
  have h32 : SMAP_VM_FLAGS < st.values.length := by rw [hlen]; decide
  unfold get_smaps_line at h
  by_cases hempty : (c_str buf).length < 1
  · simp only [hempty, if_true, Option.some.injEq, Prod.mk.injEq] at h
    obtain ⟨rfl, _⟩ := h
    exact Or.inl rfl
  · simp only [hempty, if_false] at h
    by_cases hreg : st.in_region = true
    · simp only [hreg, Bool.not_true, Bool.false_eq_true, if_false] at h
      by_cases hkey : line_key buf = cstr "VmFlags"
      · right
        by_cases h1 : (sscanf_int (c_str buf) [] 0).1 = 2
        · have hs := store_field_registered st.values (cstr "VmFlags", SMAP_VM_FLAGS)
            (Datum.int32 (sscanf_int (c_str buf) [] 0).2.2) (by decide) hlen
          simp only [h1, if_true, hk1, hkey, hs, Option.map_some', Option.some.injEq,
            Prod.mk.injEq] at h
          obtain ⟨rfl, rfl⟩ := h
          refine ⟨hreg, hkey, rfl, rfl, ?_⟩
          simp only [vmflags_slot_after, h1, if_true]
          exact List.getElem?_set_self h32
        · simp only [h1, if_false] at h
          by_cases h2 : (sscanf_text (c_str buf) (sscanf_int (c_str buf) [] 0).2.1 []).1 = 2
          · have hs := store_field_registered st.values (cstr "VmFlags", SMAP_VM_FLAGS)
              (Datum.text (sscanf_text (c_str buf) (sscanf_int (c_str buf) [] 0).2.1 []).2.2)
              (by decide) hlen
            simp only [h2, if_true, hk2, hkey, hs, Option.map_some', Option.some.injEq,
              Prod.mk.injEq] at h
            obtain ⟨rfl, rfl⟩ := h
            refine ⟨hreg, hkey, rfl, rfl, ?_⟩
            simp only [vmflags_slot_after, h1, h2, if_true, if_false]
            exact List.getElem?_set_self h32
          · simp only [h2, if_false, hk2, hkey, if_true, Option.some.injEq,
              Prod.mk.injEq] at h
            obtain ⟨rfl, rfl⟩ := h
            refine ⟨hreg, hkey, rfl, rfl, ?_⟩
            simp only [vmflags_slot_after, h1, h2, if_false]
      · left
        obtain ⟨st3, flag3, hstep, hrows, _, _⟩ := region_line_step st buf hreg hlen hkey
        unfold get_smaps_line at hstep
        simp only [hempty, if_false, hreg, Bool.not_true, Bool.false_eq_true] at hstep
        rw [hstep] at h
        simp only [Option.some.injEq, Prod.mk.injEq] at h
        obtain ⟨rfl, _⟩ := h
        exact hrows
    · left
      have hreg2 : st.in_region = false := by simpa using hreg
      simp only [hreg2, Bool.not_false, if_true] at h
      split_ifs at h <;>
        (simp only [Option.some.injEq, Prod.mk.injEq] at h
         obtain ⟨rfl, _⟩ := h
         rfl)

/-- Every row the loop hands over beyond those of its start state comes from a line of key
`VmFlags` met inside a region. -/
theorem rows_origin (lines : List (List CChar)) (st0 st : smap_state) (flag : Bool)
    (hlen : st0.values.length = SMAP_FIELD_COUNT)
    (hrun : get_smaps_lines smap_table lines st0 = some (st, flag)) :
    ∀ row ∈ st.rows, row ∈ st0.rows ∨
      ∃ pre buf post st1, lines = pre ++ buf :: post ∧
        get_smaps_lines smap_table pre st0 = some (st1, true) ∧
        st1.in_region = true ∧ line_key buf = cstr "VmFlags" ∧
        row[SMAP_VM_FLAGS]? = vmflags_slot_after st1.values[SMAP_VM_FLAGS]? buf := by
  induction lines generalizing st0 with
  | nil =>
    simp only [get_smaps_lines, Option.some.injEq, Prod.mk.injEq] at hrun
    obtain ⟨rfl, _⟩ := hrun
    intro row hrow
    exact Or.inl hrow
  | cons buf rest ih =>
    simp only [get_smaps_lines] at hrun
    cases hline : get_smaps_line smap_table st0 buf with
    | none => rw [hline] at hrun; simp at hrun
    | some r =>
      obtain ⟨st2, flag2⟩ := r
      rw [hline] at hrun
      have hl2 := get_smaps_line_length st0 st2 buf flag2 hlen hline
      have hemit := emit_step st0 st2 buf flag2 hlen hline
      have hhead : ∀ row ∈ st2.rows, row ∈ st0.rows ∨
          ∃ pre b post st1, buf :: rest = pre ++ b :: post ∧
            get_smaps_lines smap_table pre st0 = some (st1, true) ∧
            st1.in_region = true ∧ line_key b = cstr "VmFlags" ∧
            row[SMAP_VM_FLAGS]? = vmflags_slot_after st1.values[SMAP_VM_FLAGS]? b := by
        intro row hrow
        rcases hemit with hsame | ⟨hreg, hkey, _, hrows, hslot⟩
        · rw [hsame] at hrow
          exact Or.inl hrow
        · rw [hrows, List.mem_append, List.mem_singleton] at hrow
          rcases hrow with hrow | rfl
          · exact Or.inl hrow
          · exact Or.inr ⟨[], buf, rest, st0, rfl, rfl, hreg, hkey, hslot⟩
      cases flag2 with
      | false =>
        simp only [Option.some.injEq, Prod.mk.injEq] at hrun
        obtain ⟨rfl, _⟩ := hrun
        exact hhead
      | true =>
        simp only at hrun
        intro row hrow
        rcases ih st2 hl2 hrun row hrow with hin | ⟨pre, b, post, st1, hsplit, hpre, hreg, hkey, hslot⟩
        · exact hhead row hin
        · refine Or.inr ⟨buf :: pre, b, post, st1, by rw [hsplit]; rfl, ?_, hreg, hkey, hslot⟩
          simp only [get_smaps_lines, hline]
          exact hpre

/-- C12, as amended: every row handed over for a file was triggered by a line whose parsed
key is `VmFlags`, met inside a region, and its `VmFlags` slot holds what the store of that
very line left there: the number of the line when the integer format converted it, else
the text of the line when the text format converted it, else what the slot held before
the line. For a line `VmFlags: <flags>` of lower-case two-letter flags that is the first
32 chars of the flags text. -/
theorem emitted_row_origin (pid : Int) (lines : List (List CChar)) (st : smap_state)
    (flag : Bool)
    (hrun : get_smaps_lines smap_table lines (smap_init pid) = some (st, flag)) :
    (∀ row ∈ st.rows, ∃ pre buf post st1, lines = pre ++ buf :: post ∧
        get_smaps_lines smap_table pre (smap_init pid) = some (st1, true) ∧
        st1.in_region = true ∧ line_key buf = cstr "VmFlags" ∧
        row[SMAP_VM_FLAGS]? = vmflags_slot_after st1.values[SMAP_VM_FLAGS]? buf) ∧
      ∀ flags before, is_flags flags = true →
        vmflags_slot_after before (flags_line flags) = some (Datum.text (flags.take 32)) := by
  constructor
  · intro row hrow
    rcases rows_origin lines (smap_init pid) st flag (smap_init_length pid) hrun row hrow
      with hin | h
    · simp [smap_init] at hin
    · exact h
  · intro flags before hflags
    obtain ⟨_, hall⟩ := is_flags_shape flags.length flags (le_refl _) hflags
    have h1 := sscanf_int_flags_line flags [] 0 hflags
    have h2 := sscanf_text_flags_line flags (cstr "VmFlags") [] hflags
    have h12 : ¬ ((1 : Int) = 2) := by decide
    simp only [vmflags_slot_after, c_str_flags_line flags hall, h1, h12, if_false, h2, if_true]

/-- Witness of C12 as amended: the file `sample_region` for backend 7. -/
theorem emitted_row_origin_witness :
    get_smaps_lines smap_table sample_region (smap_init 7) = some (sample_state, true) ∧
      sample_state.rows.length = 1 ∧
      ((∀ row ∈ sample_state.rows, ∃ pre buf post st1, sample_region = pre ++ buf :: post ∧
          get_smaps_lines smap_table pre (smap_init 7) = some (st1, true) ∧
          st1.in_region = true ∧ line_key buf = cstr "VmFlags" ∧
          row[SMAP_VM_FLAGS]? = vmflags_slot_after st1.values[SMAP_VM_FLAGS]? buf) ∧
        ∀ flags before, is_flags flags = true →
          vmflags_slot_after before (flags_line flags)
            = some (Datum.text (flags.take 32))) :=
  ⟨by decide, by decide, emitted_row_origin 7 sample_region sample_state true (by decide)⟩

/-- C12 as stated fails. The line `VmFlags: 123` is converted by the integer format, which
is tried first, and the row handed over has the integer 123 in its `VmFlags` slot; the
line `VmFlags` without a value is converted by neither format and the row handed over has
the zeroed `VmFlags` slot. -/
theorem vmflags_slot_without_text :
    line_key (cstr "VmFlags: 123\n") = cstr "VmFlags" ∧
      (get_smaps_lines smap_table [sample_header, cstr "VmFlags: 123\n"] (smap_init 7)).map
        (fun r => r.1.rows.map fun row => row[SMAP_VM_FLAGS]?)
        = some [some (Datum.int32 123)] ∧
      line_key (cstr "VmFlags\n") = cstr "VmFlags" ∧
      (get_smaps_lines smap_table [sample_header, cstr "VmFlags\n"] (smap_init 7)).map
        (fun r => r.1.rows.map fun row => row[SMAP_VM_FLAGS]?)
        = some [some (Datum.int32 0)] := by
  decide

/-! ## The symbol table: claims C13 to C15 -/

/-- C13 fails on the code: the key `mgenanad`, eight non-NUL chars, has `hash_str` 0.
Inserted into a fresh table it is stored in its base bucket 0 with stored hash 0, the mark
of an empty bucket, and `found_empty` still holds of that bucket. -/
theorem hash_str_zero_key :
    (∀ c ∈ cstr "mgenanad", c ≠ 0) ∧ (cstr "mgenanad").length = 8 ∧
      hash_str (cstr "mgenanad") = 0 ∧
      (hash_insert hash_map_create (cstr "mgenanad") 5).map (fun r => (r.1 0, r.2))
        = some ({ hash := 0, value := 5 }, 1) ∧
      (hash_insert hash_map_create (cstr "mgenanad") 5).map
        (fun r => decide (found_empty r.1 (cstr "mgenanad"))) = some true := by
  decide

theorem insert_all_twice_table :
    insert_all hash_map_create [(cstr "Rss", 1), (cstr "Rss", 2)] = some twice_table := by
  obtain ⟨t, ht⟩ := insert_all_total [(cstr "Rss", 1), (cstr "Rss", 2)] hash_map_create
  unfold twice_table
  rw [ht]

/-- C14 fails on the code in its last part: after `Rss` was inserted twice into a fresh
table, with values 1 and 2, buckets 61 and 62 hold the hash of `Rss` and `hash_lookup` of
`Rss` returns 1, but `hash_lookup` of `y` returns 2, the value of the second entry. The
hash of `y` is stored nowhere; its probe starts at bucket 30 and gives up after 32 steps
at bucket 62, whose value is returned. -/
theorem duplicate_entry_returned :
    insert_all hash_map_create [(cstr "Rss", 1), (cstr "Rss", 2)] = some twice_table ∧
      inserts_found_empty hash_map_create [(cstr "Rss", 1), (cstr "Rss", 2)] ∧
      (List.range HASH_TABLE_SIZE).filter
        (fun i => (twice_table i).hash = hash_str (cstr "Rss")) = [61, 62] ∧
      twice_table 61 = { hash := hash_str (cstr "Rss"), value := 1 } ∧
      twice_table 62 = { hash := hash_str (cstr "Rss"), value := 2 } ∧
      hash_lookup twice_table (cstr "Rss") = some 1 ∧
      hash_str (cstr "y") ≠ hash_str (cstr "Rss") ∧
      hash_str (cstr "y") % HASH_TABLE_SIZE = 30 ∧
      lookup_loop twice_table (hash_str (cstr "y")) HASH_TABLE_SIZE 30 0 = some (62, 32) ∧
      hash_lookup twice_table (cstr "y") = some 2 :=
  ⟨insert_all_twice_table, by decide, by decide, by decide, by decide, by decide, by decide,
    by decide, by decide, by decide⟩

/-- Two inserts of one key in a row: when no bucket of the table stores the hash of `k`
and `k` is inserted twice, each insert finding an empty bucket within the probe bound,
the two entries sit at two offsets `j1 < j2` of the probe path of `k`, no other bucket
stores the hash of `k`, and `hash_lookup` of `k`, as of every key with the hash of `k`,
returns the value inserted first. -/
theorem duplicate_insert_first_wins (map : Table) (k : CString) (v1 v2 : Nat)
    (hfresh : ∀ i, i < HASH_TABLE_SIZE → (map i).hash ≠ hash_str k)
    (h1 : found_empty map k) :
    ∃ map1, hash_insert map k v1 = some (map1, 1) ∧
      (found_empty map1 k →
        ∃ map2 j1 j2, hash_insert map1 k v2 = some (map2, 1) ∧
          j1 < j2 ∧ j2 ≤ HASH_TABLE_SIZE / 2 ∧
          probe_bucket k j1 ≠ probe_bucket k j2 ∧
          map2 (probe_bucket k j1) = { hash := hash_str k, value := v1 } ∧
          map2 (probe_bucket k j2) = { hash := hash_str k, value := v2 } ∧
          (∀ i, i < HASH_TABLE_SIZE → (map2 i).hash = hash_str k →
            i = probe_bucket k j1 ∨ i = probe_bucket k j2) ∧
          ∀ key, hash_str key = hash_str k → hash_lookup map2 key = some v1) := by
  obtain ⟨j1, hj1, hzero1, hfull1⟩ := first_empty_offset map k h1
  have hk0 : hash_str k ≠ 0 := by
    intro h
    exact hfresh _ (probe_bucket_lt k j1) (by rw [hzero1, h])
  have hins1 := hash_insert_at map k v1 j1 hj1 hfull1 (Or.inr hzero1)
  refine ⟨_, hins1, ?_⟩
  intro h2
  obtain ⟨j2, hj2, hzero2, hfull2⟩ := first_empty_offset _ k h2
  have hins2 := hash_insert_at _ k v2 j2 hj2 hfull2 (Or.inr hzero2)
  have hp12 : probe_bucket k j1 ≠ probe_bucket k j2 := by
    intro heq
    rw [← heq, store_same] at hzero2
    exact hk0 hzero2
  have hlt : j1 < j2 := by
    by_contra hge
    have hle : j2 ≤ j1 := by omega
    rcases Nat.lt_or_eq_of_le hle with hlt2 | heq
    · have hne := hfull1 j2 hlt2
      rw [store_other _ _ _ _ (fun h => hp12 h.symm)] at hzero2
      exact hne hzero2
    · exact hp12 (by rw [heq])
  have hchain : ∀ i, i < j1 →
      ((map.store (probe_bucket k j1) { hash := hash_str k, value := v1 }).store
        (probe_bucket k j2) { hash := hash_str k, value := v2 }) (probe_bucket k i)
        = map (probe_bucket k i) := by
    intro i hi
    have hne := hfull1 i hi
    have hi1 : probe_bucket k i ≠ probe_bucket k j1 := by
      intro heq
      rw [heq] at hne
      exact hne hzero1
    have hi2 : probe_bucket k i ≠ probe_bucket k j2 := by
      intro heq
      rw [← heq, store_other _ _ _ _ hi1] at hzero2
      exact hne hzero2
    rw [store_other _ _ _ _ hi2, store_other _ _ _ _ hi1]
  have hat1 : ((map.store (probe_bucket k j1) { hash := hash_str k, value := v1 }).store
      (probe_bucket k j2) { hash := hash_str k, value := v2 }) (probe_bucket k j1)
      = { hash := hash_str k, value := v1 } := by
    rw [store_other _ _ _ _ hp12, store_same]
  refine ⟨_, j1, j2, hins2, hlt, hj2, hp12, hat1, store_same _ _ _, ?_, ?_⟩
  · intro i hi hhash
    by_cases hi2 : i = probe_bucket k j2
    · exact Or.inr hi2
    · by_cases hi1 : i = probe_bucket k j1
      · exact Or.inl hi1
      · rw [store_other _ _ _ _ hi2, store_other _ _ _ _ hi1] at hhash
        exact absurd hhash (hfresh i hi)
  · intro key hkey
    rw [hash_lookup_congr _ key k hkey]
    have := hash_lookup_of_chain
      ((map.store (probe_bucket k j1) { hash := hash_str k, value := v1 }).store
        (probe_bucket k j2) { hash := hash_str k, value := v2 }) k j1 hj1 (by rw [hat1])
      (by
        intro i hi
        rw [hchain i hi]
        exact hfresh _ (probe_bucket_lt k i))
    rw [this, hat1]

theorem next_bucket_lt (b : Nat) (hb : b < HASH_TABLE_SIZE) :
    next_bucket b < HASH_TABLE_SIZE := by
  rw [next_bucket_eq hb]
  exact Nat.mod_lt _ (by decide)

/-- A probe loop that has `HASH_TABLE_SIZE / 2 - tries` rounds of fuel left leaves within
them, and more fuel changes nothing. -/
theorem probe_loop_within (map : Table) (stay : hash_item → Bool) :
    ∀ (fuel b t : Nat), t + fuel = HASH_TABLE_SIZE / 2 → 0 < fuel → b < HASH_TABLE_SIZE →
      ∃ bucket tries, tries ≤ HASH_TABLE_SIZE / 2 ∧ bucket < HASH_TABLE_SIZE ∧
        ∀ fuel2, fuel ≤ fuel2 → probe_loop map stay fuel2 b t = some (bucket, tries) := by
  have hhalf : HASH_TABLE_SIZE / 2 = 32 := by decide
  intro fuel
  induction fuel with
  | zero => intro b t _ h; omega
  | succ fuel ih =>
    intro b t hsum _ hb
    by_cases hstay : stay (map b) = true
    · by_cases hbound : t + 1 = HASH_TABLE_SIZE / 2
      · refine ⟨next_bucket b, t + 1, by omega, next_bucket_lt b hb, ?_⟩
        intro fuel2 hle
        obtain ⟨f, rfl⟩ : ∃ f, fuel2 = f + 1 := ⟨fuel2 - 1, by omega⟩
        simp only [probe_loop, hstay, hbound, if_true]
      · obtain ⟨bucket, tries, ht, hbk, hall⟩ :=
          ih (next_bucket b) (t + 1) (by omega) (by omega) (next_bucket_lt b hb)
        refine ⟨bucket, tries, ht, hbk, ?_⟩
        intro fuel2 hle
        obtain ⟨f, rfl⟩ : ∃ f, fuel2 = f + 1 := ⟨fuel2 - 1, by omega⟩
        simp only [probe_loop, hstay, hbound, if_true, if_false]
        exact hall f (by omega)
    · refine ⟨b, t, by omega, hb, ?_⟩
      intro fuel2 hle
      obtain ⟨f, rfl⟩ : ∃ f, fuel2 = f + 1 := ⟨fuel2 - 1, by omega⟩
      simp only [probe_loop, hstay, if_false, Bool.false_eq_true]

/-- The condition of a probe loop reads at most `HASH_TABLE_SIZE / 2 - tries` buckets, all
of them buckets of the table. -/
theorem probe_reads_bounded (map : Table) (stay : hash_item → Bool) :
    ∀ (fuel b t : Nat), b < HASH_TABLE_SIZE → t < HASH_TABLE_SIZE / 2 →
      (probe_reads map stay fuel b t).length ≤ HASH_TABLE_SIZE / 2 - t ∧
        ∀ i ∈ probe_reads map stay fuel b t, i < HASH_TABLE_SIZE := by
  have hhalf : HASH_TABLE_SIZE / 2 = 32 := by decide
  intro fuel
  induction fuel with
  | zero =>
    intro b t _ _
    simp [probe_reads]
  | succ fuel ih =>
    intro b t hb ht
    by_cases hstay : stay (map b) = true
    · by_cases hbound : t + 1 = HASH_TABLE_SIZE / 2
      · simp only [probe_reads, hstay, hbound, if_true, List.length_singleton,
          List.mem_singleton, forall_eq]
        exact ⟨by omega, hb⟩
      · obtain ⟨hl, hm⟩ := ih (next_bucket b) (t + 1) (next_bucket_lt b hb) (by omega)
        simp only [probe_reads, hstay, hbound, if_true, if_false, List.length_cons,
          List.mem_cons, forall_eq_or_imp]
        exact ⟨by omega, hb, hm⟩
    · simp only [probe_reads, hstay, if_false, Bool.false_eq_true, List.length_singleton,
        List.mem_singleton, forall_eq]
      exact ⟨by omega, hb⟩

/-- C15: for every table and key, the probe loops of `hash_lookup` and `hash_insert`
leave within `HASH_TABLE_SIZE / 2 = 32` rounds (32 rounds of fuel are enough, the fuel
`HASH_TABLE_SIZE` of the embedding gives the same exit state), with at most 32 probe
steps counted in `tries`; the bucket at which they leave, which `hash_lookup` reads and
`hash_insert` writes, and every bucket their loop condition reads are buckets `0..63`.
On the table with all 64 buckets taken by another hash the lookup of `Rss` makes its 32
steps from bucket 61 and leaves at bucket 29. -/
theorem probe_loops_bounded (map : Table) (s : CString) :
    (∃ bucket tries,
        lookup_loop map (hash_str s) (HASH_TABLE_SIZE / 2) (hash_str s % HASH_TABLE_SIZE) 0
          = some (bucket, tries) ∧
        lookup_loop map (hash_str s) HASH_TABLE_SIZE (hash_str s % HASH_TABLE_SIZE) 0
          = some (bucket, tries) ∧
        tries ≤ HASH_TABLE_SIZE / 2 ∧ bucket < HASH_TABLE_SIZE) ∧
      (∃ bucket tries,
        insert_loop map (HASH_TABLE_SIZE / 2) (hash_str s % HASH_TABLE_SIZE) 0
          = some (bucket, tries) ∧
        insert_loop map HASH_TABLE_SIZE (hash_str s % HASH_TABLE_SIZE) 0
          = some (bucket, tries) ∧
        tries ≤ HASH_TABLE_SIZE / 2 ∧ bucket < HASH_TABLE_SIZE) ∧
      (∀ stay : hash_item → Bool,
        (probe_reads map stay HASH_TABLE_SIZE (hash_str s % HASH_TABLE_SIZE) 0).length
            ≤ HASH_TABLE_SIZE / 2 ∧
          ∀ i ∈ probe_reads map stay HASH_TABLE_SIZE (hash_str s % HASH_TABLE_SIZE) 0,
            i < HASH_TABLE_SIZE) ∧
      HASH_TABLE_SIZE / 2 = 32 ∧
      lookup_loop full_table (hash_str (cstr "Rss")) (HASH_TABLE_SIZE / 2) 61 0
        = some (29, 32) := by
  refine ⟨?_, ?_, ?_, by decide, by decide⟩
  · obtain ⟨bucket, tries, ht, hb, hall⟩ := probe_loop_within map
      (fun item => decide (item.hash ≠ hash_str s)) (HASH_TABLE_SIZE / 2)
      (hash_str s % HASH_TABLE_SIZE) 0 (by simp) (by decide) (base_bucket_lt s)
    refine ⟨bucket, tries, ?_, ?_, ht, hb⟩
    · rw [lookup_loop_eq_probe]
      exact hall _ (le_refl _)
    · rw [lookup_loop_eq_probe]
      exact hall _ (by decide)
  · obtain ⟨bucket, tries, ht, hb, hall⟩ := probe_loop_within map
      (fun item => decide (item.hash > 0)) (HASH_TABLE_SIZE / 2)
      (hash_str s % HASH_TABLE_SIZE) 0 (by simp) (by decide) (base_bucket_lt s)
    refine ⟨bucket, tries, ?_, ?_, ht, hb⟩
    · rw [insert_loop_eq_probe]
      exact hall _ (le_refl _)
    · rw [insert_loop_eq_probe]
      exact hall _ (by decide)
  · intro stay
    have := probe_reads_bounded map stay HASH_TABLE_SIZE (hash_str s % HASH_TABLE_SIZE) 0
      (base_bucket_lt s) (by decide)
    simpa using this

/-! ## The block decoder: claims C16 and C17 -/

/-- The store of a field line on the preloaded table changes one slot at most, a slot
`SMAP_SIZE .. SMAP_VM_FLAGS`, and puts the given datum there. -/
theorem store_field_slots (values values2 : List Datum) (key : CString) (datum : Datum)
    (hlen : values.length = SMAP_FIELD_COUNT)
    (h : store_field smap_table values key datum = some values2) :
    values2.length = SMAP_FIELD_COUNT ∧
      (∀ i : Nat, i < SMAP_SIZE → values2[i]? = values[i]?) ∧
      ∀ i : Nat, values2[i]? = values[i]? ∨ values2[i]? = some datum := by
  obtain ⟨v, _, hrange, hs⟩ := store_field_smap values key datum hlen
  rw [hs] at h
  injection h with h
  subst h
  by_cases h0 : v = 0
  · simp [h0, hlen]
  · have hv : SMAP_SIZE ≤ v ∧ v ≤ SMAP_VM_FLAGS := by
      rcases hrange with h | h
      · exact absurd h h0
      · exact h
    simp only [h0, if_false, List.length_set]
    refine ⟨hlen, ?_, ?_⟩
    · intro i hi
      exact List.getElem?_set_ne (by omega)
    · intro i
      by_cases hi : v = i
      · right
        subst hi
        apply List.getElem?_set_self
        rw [hlen]
        simp only [SMAP_VM_FLAGS] at hv
        simp only [SMAP_FIELD_COUNT]
        omega
      · left
        exact List.getElem?_set_ne hi

theorem store_field_some (values : List Datum) (key : CString) (datum : Datum)
    (hlen : values.length = SMAP_FIELD_COUNT) :
    ∃ values2, store_field smap_table values key datum = some values2 := by
  obtain ⟨v, _, _, hs⟩ := store_field_smap values key datum hlen
  exact ⟨_, hs⟩

/-- Inside a region the loop body always returns, keeps `values` at its
`SMAP_FIELD_COUNT` slots and leaves the slots below `SMAP_SIZE` as they were. -/
theorem region_line_frame (st : smap_state) (buf : List CChar)
    (hreg : st.in_region = true) (hlen : st.values.length = SMAP_FIELD_COUNT) :
    ∃ st2 flag, get_smaps_line smap_table st buf = some (st2, flag) ∧
      st2.values.length = SMAP_FIELD_COUNT ∧
      ∀ i : Nat, i < SMAP_SIZE → st2.values[i]? = st.values[i]? := by
  unfold get_smaps_line
  by_cases hempty : (c_str buf).length < 1
  · simp only [hempty, if_true]
    exact ⟨st, false, rfl, hlen, fun _ _ => rfl⟩
  · simp only [hempty, if_false, hreg, Bool.not_true, Bool.false_eq_true]
    by_cases h1 : (sscanf_int (c_str buf) [] 0).1 = 2
    · obtain ⟨values2, hs⟩ := store_field_some st.values (sscanf_int (c_str buf) [] 0).2.1
        (Datum.int32 (sscanf_int (c_str buf) [] 0).2.2) hlen
      obtain ⟨hl2, hframe, _⟩ := store_field_slots _ _ _ _ hlen hs
      simp only [h1, if_true, hs, Option.map_some']
      split_ifs
      · exact ⟨_, true, rfl, hl2, hframe⟩
      · exact ⟨_, true, rfl, hl2, hframe⟩
    · simp only [h1, if_false]
      by_cases h2 : (sscanf_text (c_str buf) (sscanf_int (c_str buf) [] 0).2.1 []).1 = 2
      · obtain ⟨values2, hs⟩ := store_field_some st.values
          (sscanf_text (c_str buf) (sscanf_int (c_str buf) [] 0).2.1 []).2.1
          (Datum.text (sscanf_text (c_str buf) (sscanf_int (c_str buf) [] 0).2.1 []).2.2) hlen
        obtain ⟨hl2, hframe, _⟩ := store_field_slots _ _ _ _ hlen hs
        simp only [h2, if_true, hs, Option.map_some']
        split_ifs
        · exact ⟨_, true, rfl, hl2, hframe⟩
        · exact ⟨_, true, rfl, hl2, hframe⟩
      · simp only [h2, if_false]
        split_ifs
        · exact ⟨_, true, rfl, hlen, fun _ _ => rfl⟩
        · exact ⟨_, true, rfl, hlen, fun _ _ => rfl⟩

/-- C16: on the preloaded table `hash_lookup` returns, for every key, 0 or a slot
`SMAP_SIZE (9) .. SMAP_VM_FLAGS (32)`; so the store `values[hash_index] = datum` of a
field line is skipped or made at that slot, within the `SMAP_FIELD_COUNT (33)` slots of
`values`, and no line handled inside a region changes the pid slot or one of the eight
header slots (indices 0..8). -/
theorem field_store_in_range (key : CString) (datum : Datum) (st : smap_state)
    (buf : List CChar)
    (hreg : st.in_region = true) (hlen : st.values.length = SMAP_FIELD_COUNT) :
    (∃ v, hash_lookup smap_table key = some v ∧
        (v = 0 ∨ (SMAP_SIZE ≤ v ∧ v ≤ SMAP_VM_FLAGS)) ∧ v < SMAP_FIELD_COUNT ∧
        store_field smap_table st.values key datum
          = some (if v = 0 then st.values else st.values.set v datum)) ∧
      (∃ st2 flag, get_smaps_line smap_table st buf = some (st2, flag) ∧
        st2.values.length = SMAP_FIELD_COUNT ∧
        ∀ i : Nat, i < SMAP_SIZE → st2.values[i]? = st.values[i]?) ∧
      SMAP_SIZE = 9 ∧ SMAP_VM_FLAGS = 32 ∧ SMAP_FIELD_COUNT = 33 := by
  refine ⟨?_, region_line_frame st buf hreg hlen, rfl, rfl, rfl⟩
  obtain ⟨v, hv, hrange, hs⟩ := store_field_smap st.values key datum hlen
  refine ⟨v, hv, hrange, ?_, hs⟩
  simp only [SMAP_SIZE, SMAP_VM_FLAGS, SMAP_FIELD_COUNT] at *
  omega

/-- Witness of C16: in the region opened by `sample_header` the line `a: 5`, whose key is
no registered name, has its store made at a slot of the range and leaves slots 0..8 as
they were. -/
theorem field_store_in_range_witness :
    sample_open_state.in_region = true ∧
      sample_open_state.values.length = SMAP_FIELD_COUNT ∧
      hash_lookup smap_table (cstr "a") = some 14 ∧
      ((∃ v, hash_lookup smap_table (cstr "a") = some v ∧
          (v = 0 ∨ (SMAP_SIZE ≤ v ∧ v ≤ SMAP_VM_FLAGS)) ∧ v < SMAP_FIELD_COUNT ∧
          store_field smap_table sample_open_state.values (cstr "a") (Datum.int32 5)
            = some (if v = 0 then sample_open_state.values
                else sample_open_state.values.set v (Datum.int32 5))) ∧
        (∃ st2 flag,
          get_smaps_line smap_table sample_open_state (cstr "a: 5\n") = some (st2, flag) ∧
          st2.values.length = SMAP_FIELD_COUNT ∧
          ∀ i : Nat, i < SMAP_SIZE → st2.values[i]? = sample_open_state.values[i]?) ∧
        SMAP_SIZE = 9 ∧ SMAP_VM_FLAGS = 32 ∧ SMAP_FIELD_COUNT = 33) :=
  ⟨by decide, by decide, by decide,
    field_store_in_range (cstr "a") (Datum.int32 5) sample_open_state (cstr "a: 5\n")
      (by decide) (by decide)⟩

theorem smap_init_numeric (pid : Int) : numeric_slots_int (smap_init pid).values := by
  intro i hlo hhi
  refine ⟨0, ?_⟩
  have hne : SMAP_PID ≠ i := by
    simp only [SMAP_PID, SMAP_SIZE] at *
    omega
  simp only [smap_init]
  rw [List.getElem?_set_ne hne]
  have hi : i < SMAP_FIELD_COUNT := by
    simp only [SMAP_THP_ELIGIBLE, SMAP_FIELD_COUNT] at *
    omega
  simp [List.getElem?_replicate, hi]

/-- One pass of the loop body keeps an `Int32GetDatum` in every numeric slot unless the
line takes the text branch with a key other than `VmFlags`; a row it hands over is
`values` as they stand after the pass. -/
theorem numeric_step (st st2 : smap_state) (buf : List CChar) (flag : Bool)
    (hlen : st.values.length = SMAP_FIELD_COUNT) (hnum : numeric_slots_int st.values)
    (htext : takes_text_branch buf = true → line_key buf = cstr "VmFlags")
    (h : get_smaps_line smap_table st buf = some (st2, flag)) :
    numeric_slots_int st2.values ∧
      ∀ row ∈ st2.rows, row ∈ st.rows ∨ row = st2.values := by
  obtain ⟨hk1, hk2⟩ := field_keys buf
  have hkeep : ∀ values2 : List Datum, (∀ i : Nat, values2[i]? = st.values[i]? ∨
      ∃ v, values2[i]? = some (Datum.int32 v)) → numeric_slots_int values2 := by
    intro values2 hv i hlo hhi
    rcases hv i with h | h
    · rw [h]; exact hnum i hlo hhi
    · exact h
  unfold get_smaps_line at h
  by_cases hempty : (c_str buf).length < 1
  · simp only [hempty, if_true, Option.some.injEq, Prod.mk.injEq] at h
    obtain ⟨rfl, _⟩ := h
    exact ⟨hnum, fun row hrow => Or.inl hrow⟩
  · simp only [hempty, if_false] at h
    by_cases hreg : st.in_region = true
    · simp only [hreg, Bool.not_true, Bool.false_eq_true, if_false] at h
      by_cases h1 : (sscanf_int (c_str buf) [] 0).1 = 2
      · obtain ⟨values2, hs⟩ := store_field_some st.values (sscanf_int (c_str buf) [] 0).2.1
          (Datum.int32 (sscanf_int (c_str buf) [] 0).2.2) hlen
        obtain ⟨_, _, hslots⟩ := store_field_slots _ _ _ _ hlen hs
        have hn2 : numeric_slots_int values2 := hkeep values2 (fun i => by
          rcases hslots i with h | h
          · exact Or.inl h
          · exact Or.inr ⟨_, h⟩)
        simp only [h1, if_true, hs, Option.map_some'] at h
        split_ifs at h <;>
          (simp only [Option.some.injEq, Prod.mk.injEq] at h
           obtain ⟨rfl, _⟩ := h
           refine ⟨hn2, fun row hrow => ?_⟩
           simp only [List.mem_append, List.mem_singleton] at hrow
           tauto)
      · simp only [h1, if_false] at h
        by_cases h2 : (sscanf_text (c_str buf) (sscanf_int (c_str buf) [] 0).2.1 []).1 = 2
        · have hbranch : takes_text_branch buf = true := by
            simp [takes_text_branch, h1, h2]
          have hkey := htext hbranch
          have hs := store_field_registered st.values (cstr "VmFlags", SMAP_VM_FLAGS)
            (Datum.text (sscanf_text (c_str buf) (sscanf_int (c_str buf) [] 0).2.1 []).2.2)
            (by decide) hlen
          have hn2 : numeric_slots_int (st.values.set SMAP_VM_FLAGS
              (Datum.text (sscanf_text (c_str buf) (sscanf_int (c_str buf) [] 0).2.1 []).2.2)) := by
            intro i hlo hhi
            have hi : SMAP_VM_FLAGS ≠ i := by
              simp only [SMAP_VM_FLAGS, SMAP_THP_ELIGIBLE] at *
              omega
            rw [List.getElem?_set_ne hi]
            exact hnum i hlo hhi
          simp only [h2, if_true, hk2, hkey, hs, Option.map_some', Option.some.injEq,
            Prod.mk.injEq] at h
          obtain ⟨rfl, _⟩ := h
          refine ⟨hn2, fun row hrow => ?_⟩
          simp only [List.mem_append, List.mem_singleton] at hrow
          tauto
        · simp only [h2, if_false] at h
          split_ifs at h <;>
            (simp only [Option.some.injEq, Prod.mk.injEq] at h
             obtain ⟨rfl, _⟩ := h
             refine ⟨hnum, fun row hrow => ?_⟩
             simp only [List.mem_append, List.mem_singleton] at hrow
             tauto)
    · have hreg2 : st.in_region = false := by simpa using hreg
      simp only [hreg2, Bool.not_false, if_true] at h
      split_ifs at h
      · simp only [Option.some.injEq, Prod.mk.injEq] at h
        obtain ⟨rfl, _⟩ := h
        exact ⟨hnum, fun row hrow => Or.inl hrow⟩
      · simp only [Option.some.injEq, Prod.mk.injEq] at h
        obtain ⟨rfl, _⟩ := h
        refine ⟨?_, fun row hrow => Or.inl hrow⟩
        intro i hlo hhi
        simp only [SMAP_SIZE, SMAP_START_ADDRESS, SMAP_END_ADDRESS, SMAP_PERMISSIONS,
          SMAP_OFFSET, SMAP_DEV_MAJOR, SMAP_DEV_MINOR, SMAP_INODE, SMAP_PATH] at hlo ⊢
        rw [List.getElem?_set_ne (by omega), List.getElem?_set_ne (by omega),
          List.getElem?_set_ne (by omega), List.getElem?_set_ne (by omega),
          List.getElem?_set_ne (by omega), List.getElem?_set_ne (by omega),
          List.getElem?_set_ne (by omega), List.getElem?_set_ne (by omega)]
        exact hnum i (by simp only [SMAP_SIZE]; exact hlo) hhi

/-- The loop keeps an `Int32GetDatum` in every numeric slot of `values` and of the rows
handed over, when no line takes the text branch with a key other than `VmFlags`. -/
theorem numeric_rows (lines : List (List CChar)) (st0 st : smap_state) (flag : Bool)
    (hlen : st0.values.length = SMAP_FIELD_COUNT) (hnum : numeric_slots_int st0.values)
    (hrows : ∀ row ∈ st0.rows, numeric_slots_int row)
    (htext : ∀ buf ∈ lines, takes_text_branch buf = true → line_key buf = cstr "VmFlags")
    (hrun : get_smaps_lines smap_table lines st0 = some (st, flag)) :
    numeric_slots_int st.values ∧ ∀ row ∈ st.rows, numeric_slots_int row := by
  induction lines generalizing st0 with
  | nil =>
    simp only [get_smaps_lines, Option.some.injEq, Prod.mk.injEq] at hrun
    obtain ⟨rfl, _⟩ := hrun
    exact ⟨hnum, hrows⟩
  | cons buf rest ih =>
    simp only [get_smaps_lines] at hrun
    cases hline : get_smaps_line smap_table st0 buf with
    | none => rw [hline] at hrun; simp at hrun
    | some r =>
      obtain ⟨st2, flag2⟩ := r
      rw [hline] at hrun
      have hl2 := get_smaps_line_length st0 st2 buf flag2 hlen hline
      obtain ⟨hn2, hr2⟩ := numeric_step st0 st2 buf flag2 hlen hnum
        (htext buf (by simp)) hline
      have hrows2 : ∀ row ∈ st2.rows, numeric_slots_int row := by
        intro row hrow
        rcases hr2 row hrow with h | h
        · exact hrows row h
        · rw [h]; exact hn2
      cases flag2 with
      | false =>
        simp only [Option.some.injEq, Prod.mk.injEq] at hrun
        obtain ⟨rfl, _⟩ := hrun
        exact ⟨hn2, hrows2⟩
      | true =>
        exact ih st2 hl2 hn2 hrows2 (fun b hb => htext b (by simp [hb])) hrun

/-- C17, as amended: for every file in which no line takes the text branch
(`key: lowercase-text`) with a key other than `VmFlags`, in every row handed over each
numeric field slot `SMAP_SIZE .. SMAP_THP_ELIGIBLE` holds an integer datum: the zero it
started with or a number stored by the integer branch. -/
theorem numeric_slots_hold_integers (pid : Int) (lines : List (List CChar))
    (st : smap_state) (flag : Bool)
    (htext : ∀ buf ∈ lines, takes_text_branch buf = true → line_key buf = cstr "VmFlags")
    (hrun : get_smaps_lines smap_table lines (smap_init pid) = some (st, flag)) :
    ∀ row ∈ st.rows, ∀ i : Nat, SMAP_SIZE ≤ i → i ≤ SMAP_THP_ELIGIBLE →
      ∃ v, row[i]? = some (Datum.int32 v) :=
  (numeric_rows lines (smap_init pid) st flag (smap_init_length pid) (smap_init_numeric pid)
    (by intro row hrow; simp [smap_init] at hrow) htext hrun).2

/-- Witness of C17 as amended: the file `sample_region`, whose only line on the text
branch is the `VmFlags` line. -/
theorem numeric_slots_hold_integers_witness :
    (∀ buf ∈ sample_region, takes_text_branch buf = true → line_key buf = cstr "VmFlags") ∧
      takes_text_branch (cstr "VmFlags: rd wr\n") = true ∧
      get_smaps_lines smap_table sample_region (smap_init 7) = some (sample_state, true) ∧
      sample_state.rows.length = 1 ∧
      ∀ row ∈ sample_state.rows, ∀ i : Nat, SMAP_SIZE ≤ i → i ≤ SMAP_THP_ELIGIBLE →
        ∃ v, row[i]? = some (Datum.int32 v) :=
  ⟨by decide, by decide, by decide, by decide,
    numeric_slots_hold_integers 7 sample_region sample_state true (by decide) (by decide)⟩

/-- C17 as stated fails, on its own example. Inside a region the line `Rss: abc` is not
converted by the integer format and is converted by the text format; the text `abc` is
stored into the slot `hash_lookup` returns for `Rss`, and the row handed over has the
text `abc` in its `Rss` slot. -/
theorem text_in_numeric_slot :
    (sscanf_int (c_str (cstr "Rss: abc\n")) [] 0).1 = 1 ∧
      sscanf_text (c_str (cstr "Rss: abc\n")) [] [] = (2, cstr "Rss", cstr "abc") ∧
      takes_text_branch (cstr "Rss: abc\n") = true ∧
      hash_lookup smap_table (cstr "Rss") = some SMAP_RSS ∧
      SMAP_SIZE ≤ SMAP_RSS ∧ SMAP_RSS ≤ SMAP_THP_ELIGIBLE ∧
      (get_smaps_lines smap_table [sample_header, cstr "Rss: abc\n", cstr "VmFlags: rd\n"]
          (smap_init 7)).map
        (fun r => r.1.rows.map fun row => row[SMAP_RSS]?)
        = some [some (Datum.text (cstr "abc"))] := by
  decide

end PgMeminfo
